import Mathlib

/-!
# git-visible: a verification development of the commit-statistics core

This file gives a shallow embedding, in Lean 4, of the core of the
`git-visible` repository: the proleptic-Gregorian day arithmetic used by the
`stats` package (`beginningOfDay`, `dayKeyFromTime`, `dayKeyToTime`,
`heatmapStart`, `TimeRange`), the per-repository commit walker
(`walkRepoCommits`, `collectStartPoints`), the cache store
(`SaveCache` / `LoadCache` / `normalizeKey`), the collection orchestrator
(`collectCommonGeneric`, `CollectStats`, `CollectStatsPerRepo`,
`CollectStatsByEmails`), the identity normalizer (`Config.NormalizeEmail`),
percent change (`CalculatePercentChange`) and the ranking engine
(`RankRepositories`).

Modelling conventions, chosen once and used throughout:

* A wall-clock instant (`time.Time` in one fixed location) is modelled by
  `GoTime`: an epoch-day number (days since 1970-01-01 in the location,
  as an integer) together with a seconds-of-day offset.  All code under
  study converts instants through a single location (`end.Location()`),
  so the location itself is dropped.
* Machine integers (`int`) are modelled by `Int`/`Nat`; overflow is not
  modelled (the counts in play are tiny).  Go's truncated `/` and `%` are
  `Int.tdiv` / `Int.tmod`; Go's internal calendar normalisation is floor
  division, which for positive divisors is Lean's `/` on `Int`.
* `float64` quantities (`Percent`) are modelled by `ℚ`.
* Go maps are modelled by association lists updated in iteration order
  (`insertAdd`, `insertReplace`) or, for final day-count results, by total
  functions with default `0`; a missing key is the value `0`.
* Goroutine fan-out in the orchestrator is modelled by a sequential fold
  over the repository list: the shared-state merges in the source are
  commutative and lock-protected, so any interleaving yields the fold.
* The `time` standard library's calendar conversions are modelled from
  first principles: `daysFromCivil` is the rata-die formula, and
  `civilFromDays` recovers the civil date by a fuel-bounded scan; both
  are proved inverse to each other below, which is all the walker and
  time-range code rely on.
* Filesystem effects in the cache store are modelled by an explicit store
  value (`CacheStore`), and the SHA-256 digest of the canonical cache
  payload is abstracted by the payload itself (an injective fingerprint,
  which is the property the store layout relies on).
-/

/-! ## Calendar arithmetic (model of the `time` package) -/

/-- Gregorian leap-year rule, as in the Go `time` package. -/
def isLeapYear (y : Int) : Bool :=
  (y % 4 == 0 && y % 100 != 0) || y % 400 == 0

/-- Number of days of year `y`. -/
def daysInYear (y : Int) : Int :=
  if isLeapYear y then 366 else 365

/-- Number of days of month `m` of year `y` (meaningful for `1 ≤ m ≤ 12`). -/
def monthLength (y m : Int) : Int :=
  if m = 2 then (if isLeapYear y then 29 else 28)
  else if m = 4 ∨ m = 6 ∨ m = 9 ∨ m = 11 then 30
  else 31

/-- Days from January 1 of year `y` to the first day of month `m`
(meaningful for `1 ≤ m ≤ 13`; at `13` it is the whole year). -/
def daysBeforeMonth (y m : Int) : Int :=
  let l : Int := if isLeapYear y then 1 else 0
  if m ≤ 1 then 0
  else if m = 2 then 31
  else if m = 3 then 59 + l
  else if m = 4 then 90 + l
  else if m = 5 then 120 + l
  else if m = 6 then 151 + l
  else if m = 7 then 181 + l
  else if m = 8 then 212 + l
  else if m = 9 then 243 + l
  else if m = 10 then 273 + l
  else if m = 11 then 304 + l
  else if m = 12 then 334 + l
  else 365 + l

/-- Rata-die style count: days from 0001-01-01 to January 1 of year `y`
(proleptic Gregorian; `/` on `Int` is floor division for the positive
divisors used here, matching the calendar's leap-day accumulation). -/
def daysBeforeYear (y : Int) : Int :=
  365 * (y - 1) + (y - 1) / 4 - (y - 1) / 100 + (y - 1) / 400

/-- Epoch-day number (days since 1970-01-01) of the civil date `y-m-d`,
for a valid civil date. The day component is purely additive, so an
out-of-range `d` rolls over exactly like Go's epoch-day arithmetic. -/
def daysFromCivil (y m d : Int) : Int :=
  daysBeforeYear y + daysBeforeMonth y m + (d - 1) - 719162

/-- Fuel-bounded scan locating the year containing day-offset `r` counted
from January 1 of year `y`; returns the year and the day-of-year. -/
def yearScan : Nat → Int → Int → Int × Int
  | 0, y, r => (y, r)
  | fuel + 1, y, r =>
    if r < daysInYear y then (y, r) else yearScan fuel (y + 1) (r - daysInYear y)

/-- Fuel-bounded scan locating the month containing day-of-year `r` of
year `y`, starting at month `m`; returns the month and day-of-month offset. -/
def monthScan : Nat → Int → Int → Int → Int × Int
  | 0, _, m, r => (m, r)
  | fuel + 1, y, m, r =>
    if r < monthLength y m then (m, r) else monthScan fuel y (m + 1) (r - monthLength y m)

/-- Civil date `(y, m, d)` of an epoch-day number: era split into 400-year
cycles of exactly 146097 days, then a year scan and a month scan. -/
def civilFromDays (z : Int) : Int × Int × Int :=
  let a := z + 719162
  let era := a / 146097
  let doe := a - era * 146097
  let yr := yearScan 400 (era * 400 + 1) doe
  let mr := monthScan 12 yr.1 1 yr.2
  (yr.1, mr.1, mr.2 + 1)

/-- A wall-clock instant in the ambient location: epoch-day number plus a
second-of-day offset.  Models `time.Time` at the granularity the
statistics code observes. -/
structure GoTime where
  day : Int
  sec : Int
deriving DecidableEq, Repr

/-- The zero `time.Time` (January 1, year 1, 00:00:00). -/
def goZeroTime : GoTime := ⟨daysFromCivil 1 1 1, 0⟩

/-- Model of `time.Date(y, m, d, 0, 0, 0, 0, loc)` restricted to its day
number: the month is normalised into `[1, 12]` with a year borrow (Go's
`norm`), and the day offset then rolls through the epoch-day count. -/
def goDateDays (y m d : Int) : Int :=
  let mm := m - 1
  daysFromCivil (y + mm / 12) (mm % 12 + 1) d

/-- Model of `t.AddDate(years, months, days)`: re-normalised civil
arithmetic on the date, clock carried over. -/
def goAddDate (t : GoTime) (years months days : Int) : GoTime :=
  let c := civilFromDays t.day
  ⟨goDateDays (c.1 + years) (c.2.1 + months) (c.2.2 + days), t.sec⟩

/-- Weekday of an epoch-day number, `0 = Sunday` (1970-01-01 was a
Thursday, weekday `4`). -/
def weekdayOfDay (z : Int) : Int :=
  (z + 4) % 7

/-- `a.After(b)` on instants. -/
def timeAfter (a b : GoTime) : Prop :=
  b.day < a.day ∨ (a.day = b.day ∧ b.sec < a.sec)

instance : DecidablePred fun p : GoTime × GoTime => timeAfter p.1 p.2 := by
  intro p; unfold timeAfter; infer_instance

instance (a b : GoTime) : Decidable (timeAfter a b) := by
  unfold timeAfter; infer_instance

/-- `beginningOfDay` of the source: truncate the instant to 00:00:00 of
its civil day in the ambient location. -/
def beginningOfDay (t : GoTime) : GoTime :=
  ⟨t.day, 0⟩

/-- `dayKeyFromTime` of the source: the integer `yyyy*10000 + mm*100 + dd`
of the instant's civil date. -/
def dayKeyFromTime (t : GoTime) : Int :=
  let c := civilFromDays t.day
  c.1 * 10000 + c.2.1 * 100 + c.2.2

/-- `dayKeyToTime` of the source: midnight of the civil date encoded in a
day key, with Go's truncated `/` and `%` splitting the digits and
`time.Date` normalising the components. -/
def dayKeyToTime (dayKey : Int) : GoTime :=
  ⟨goDateDays (dayKey.tdiv 10000) ((dayKey.tdiv 100).tmod 100) (dayKey.tmod 100), 0⟩

/-- The backward day-by-day walk of `heatmapStart`'s `for` loop, with a
fuel bound; seven steps always suffice (proved below), so the fuelled
function satisfies the loop's defining equation. -/
def sundayLoop : Nat → GoTime → GoTime
  | 0, t => t
  | fuel + 1, t =>
    if weekdayOfDay t.day = 0 then t else sundayLoop fuel (goAddDate t 0 0 (-1))

/-- `heatmapStart` of the source: `months` calendar months before `now`,
truncated to the beginning of the day, then walked backward to the
nearest Sunday. -/
def heatmapStart (now : GoTime) (months : Int) : GoTime :=
  sundayLoop 7 (beginningOfDay (goAddDate now 0 (-months) 0))

/-- Decidable equality for `Except` values (needed to evaluate the model
at concrete inputs). -/
instance {e a : Type} [DecidableEq e] [DecidableEq a] : DecidableEq (Except e a) :=
  fun x y =>
    match x, y with
    | .ok v, .ok w => if h : v = w then .isTrue (by rw [h]) else .isFalse (by simp [h])
    | .error v, .error w => if h : v = w then .isTrue (by rw [h]) else .isFalse (by simp [h])
    | .ok _, .error _ => .isFalse (by simp)
    | .error _, .ok _ => .isFalse (by simp)

/-! ## String primitives

Lean's built-in `String.trim`, `splitOn`, `toLower`, `<` and `toNat?` are
implemented over byte iterators and do not reduce in the kernel, so the Go
`strings`/`strconv`/`sort` primitives the source uses are modelled here
directly over the character sequence. -/

/-- `strings.TrimSpace`: drop leading and trailing whitespace. -/
def goTrim (s : String) : String :=
  ⟨((s.data.dropWhile Char.isWhitespace).reverse.dropWhile Char.isWhitespace).reverse⟩

/-- Split on a single-character separator (the only shape the source
uses), keeping empty fields like `strings.Split`. -/
def splitOnCharAux (c : Char) : List Char → List Char → List String
  | [], acc => [⟨acc.reverse⟩]
  | x :: rest, acc =>
    if x = c then ⟨acc.reverse⟩ :: splitOnCharAux c rest []
    else splitOnCharAux c rest (x :: acc)

/-- `strings.Split(s, c)` for a one-character separator. -/
def splitOnChar (c : Char) (s : String) : List String :=
  splitOnCharAux c s.data []

/-- `strings.HasPrefix`. -/
def strStartsWith (s pre : String) : Bool :=
  pre.data.isPrefixOf s.data

/-- `strings.ToLower` at the ASCII level of the simple case fold. -/
def strToLower (s : String) : String :=
  ⟨s.data.map Char.toLower⟩

/-- Lexicographic `<=` on character sequences by code point — the order
`sort.Strings` uses (UTF-8 byte order coincides with code-point order). -/
def charListLeB : List Char → List Char → Bool
  | [], _ => true
  | _ :: _, [] => false
  | a :: as, b :: bs =>
    if a.val < b.val then true
    else if b.val < a.val then false
    else charListLeB as bs

/-- String `<=` as a proposition, for the sorting relations. -/
def strLe (a b : String) : Prop :=
  charListLeB a.data b.data = true

instance : DecidableRel strLe := by
  intro a b; unfold strLe; infer_instance

/-- Decimal value of a digit list (used only after an is-digit check),
modelling `strconv.Atoi` on validated input. -/
def digitsVal (cs : List Char) : Nat :=
  cs.foldl (fun n c => n * 10 + (c.toNat - '0'.toNat)) 0

/-! ## Time-range resolver (`TimeRange` of the source)

`ParseDate` (date-string parsing, exercised only when a `--since`/`--until`
string is present) is passed as a function parameter. -/

/-- Model of `TimeRange(since, until, months)` at reference instant `now`.
Mirrors the source's branch structure: the both-empty default window, the
single-sided completions, and the final order check. -/
def TimeRange (parseDate : String → Except String GoTime)
    (sinceStr untilStr : String) (months : Int) (now : GoTime) :
    Except String (GoTime × GoTime) :=
  let sinceS := goTrim sinceStr
  let untilS := goTrim untilStr
  if sinceS = "" ∧ untilS = "" then
    if months ≤ 0 then .error ("months must be > 0, got " ++ toString months)
    else .ok (heatmapStart now months, beginningOfDay now)
  else
    match (if sinceS = "" then .ok goZeroTime else
      match parseDate sinceS with
      | .error e => .error ("parse --since: " ++ e)
      | .ok t => .ok (beginningOfDay t) : Except String GoTime) with
    | .error e => .error e
    | .ok start1 =>
      match (if untilS = "" then .ok goZeroTime else
        match parseDate untilS with
        | .error e => .error ("parse --until: " ++ e)
        | .ok t => .ok (beginningOfDay t) : Except String GoTime) with
      | .error e => .error e
      | .ok end1 =>
        match (if sinceS ≠ "" ∧ untilS = "" then .ok (start1, beginningOfDay now)
          else if sinceS = "" ∧ untilS ≠ "" then
            (if months ≤ 0 then .error ("months must be > 0, got " ++ toString months)
             else .ok (heatmapStart end1 months, end1))
          else .ok (start1, end1) : Except String (GoTime × GoTime)) with
        | .error e => .error e
        | .ok se =>
          if timeAfter se.1 se.2 then .error "since must be <= until"
          else .ok se

/-! ## Association-list models of Go maps -/

/-- First-match lookup in an association list (a Go map read). -/
def assocLookup {α β : Type} [DecidableEq α] : List (α × β) → α → Option β
  | [], _ => none
  | (k', v) :: rest, k => if k' = k then some v else assocLookup rest k

/-- Lookup with default `0`: a Go map read of a numeric map. -/
def lookupD {α : Type} [DecidableEq α] (l : List (α × Int)) (k : α) : Int :=
  (assocLookup l k).getD 0

/-- `m[k] += v` on a Go numeric map: add into the existing entry, or append
a fresh one. -/
def assocInsertAdd {α : Type} [DecidableEq α] : List (α × Int) → α → Int → List (α × Int)
  | [], k, v => [(k, v)]
  | (k', v') :: rest, k, v =>
    if k' = k then (k', v' + v) :: rest else (k', v') :: assocInsertAdd rest k v

/-- `m[k] = v` on a Go map: replace the existing entry, or append. -/
def assocInsertReplace {α β : Type} [DecidableEq α] : List (α × β) → α → β → List (α × β)
  | [], k, v => [(k, v)]
  | (k', v') :: rest, k, v =>
    if k' = k then (k', v) :: rest else (k', v') :: assocInsertReplace rest k v

/-! ## Percent change (`internal/stats/compare.go`) -/

/-- `PercentChange`: the two-field result carrying the value and a
defined-flag (`Defined = false` signals "N/A"). `float64` is modelled
by `ℚ`. -/
structure PercentChange where
  Percent : ℚ
  Defined : Bool
deriving DecidableEq, Repr

/-- `CalculatePercentChange(from, to)`: `(to-from)/from*100` with the two
zero-`from` special cases. -/
def CalculatePercentChange (x y : ℚ) : PercentChange :=
  if x = 0 then
    (if y = 0 then ⟨0, true⟩ else ⟨0, false⟩)
  else ⟨(y - x) / x * 100, true⟩

/-! ## Identity normalizer (`internal/config`) -/

/-- An alias group: a display name and a member email list whose first
element is the group's primary identity. -/
structure Alias where
  Name : String
  Emails : List String
deriving DecidableEq, Repr

/-- The application configuration (the fields the normalizer reads). -/
structure Config where
  Months : Int
  Email : String
  Aliases : List Alias
deriving DecidableEq, Repr

/-- Model of `strings.EqualFold` at the ASCII simple-fold level used by the
email data in this code base. -/
def eqFold (a b : String) : Bool :=
  strToLower a == strToLower b

/-- The alias-group scan inside `Config.NormalizeEmail`: first group with a
(trimmed, case-insensitive) member match returns its trimmed primary. -/
def normalizeEmailLoop (target fallback : String) : List Alias → String
  | [] => fallback
  | a :: rest =>
    match a.Emails with
    | [] => normalizeEmailLoop target fallback rest
    | primary :: _ =>
      if a.Emails.any (fun aliasEmail => eqFold target (goTrim aliasEmail)) then goTrim primary
      else normalizeEmailLoop target fallback rest

/-- `Config.NormalizeEmail`: map an email to its alias group's primary
identity; the nil-receiver and empty-alias guards both return the input. -/
def Config.NormalizeEmail (c : Config) (email : String) : String :=
  if c.Aliases = [] then email
  else
    let target := goTrim email
    if target = "" then email
    else normalizeEmailLoop target email c.Aliases

/-- Specification-side description of the scan: the trimmed primary of the
first alias group containing a match, if any. -/
def firstMatchingPrimary (target : String) : List Alias → Option String
  | [] => none
  | a :: rest =>
    match a.Emails with
    | [] => firstMatchingPrimary target rest
    | primary :: _ =>
      if a.Emails.any (fun aliasEmail => eqFold target (goTrim aliasEmail)) then some (goTrim primary)
      else firstMatchingPrimary target rest

/-! ## Cache store (`internal/cache`) -/

/-- `CacheKey`: the full parameter fingerprint of one repository scan. -/
structure CacheKey where
  RepoPath : String
  HEADHash : String
  Emails : List String
  TimeRange : String
  Branch : String
  AllBranch : Bool
deriving DecidableEq, Repr

/-- `CacheEntry`: the persisted record (stats keyed by ISO date strings). -/
structure CacheEntry where
  Key : CacheKey
  Stats : List (String × Int)
  CreatedAt : GoTime
deriving DecidableEq, Repr

/-- Unix `filepath.Clean`, elementwise form: drop `.` and empty components,
resolve `..` against the stack (absolute paths drop unmatched `..`). -/
def cleanProc (rooted : Bool) : List String → List String → List String
  | acc, [] => acc.reverse
  | acc, c :: rest =>
    if c = "." then cleanProc rooted acc rest
    else if c = ".." then
      match acc with
      | [] => if rooted then cleanProc rooted [] rest else cleanProc rooted [".."] rest
      | top :: acc' =>
        if top = ".." then cleanProc rooted (".." :: acc) rest else cleanProc rooted acc' rest
    else cleanProc rooted (c :: acc) rest

/-- Model of `filepath.Clean` (Unix separators). -/
def filepathClean (p : String) : String :=
  if p = "" then "."
  else
    let rooted := strStartsWith p "/"
    let comps := cleanProc rooted [] ((splitOnChar '/' p).filter (· ≠ ""))
    let body := String.intercalate "/" comps
    if rooted then "/" ++ body
    else if body = "" then "." else body

/-- Model of `filepath.Base` (Unix separators). -/
def filepathBase (p : String) : String :=
  if p = "" then "."
  else
    match ((splitOnChar '/' p).filter (· ≠ "")).getLast? with
    | none => "/"
    | some c => c

/-- `sanitizeFileComponent`: trim, reject degenerate names, replace
separator, space and colon by underscores. -/
def sanitizeFileComponent (name : String) : String :=
  let name := goTrim name
  if name = "" ∨ name = "." ∨ name = "/" then ""
  else ⟨name.data.map (fun ch => if ch = '/' ∨ ch = ' ' ∨ ch = ':' then '_' else ch)⟩

/-- `normalizeEmails`: trim members, drop empties, sort ascending. -/
def normalizeEmails (emails : List String) : List String :=
  if emails = [] then []
  else List.insertionSort strLe ((emails.map goTrim).filter (· ≠ ""))

/-- `normalizeKey`: path cleaned, whitespace trimmed, emails normalized. -/
def normalizeKey (key : CacheKey) : CacheKey :=
  { key with
    RepoPath := filepathClean (goTrim key.RepoPath)
    HEADHash := goTrim key.HEADHash
    TimeRange := goTrim key.TimeRange
    Branch := goTrim key.Branch
    Emails := normalizeEmails key.Emails }

/-- The canonical newline-joined payload of a key, in the fixed field
order of `CacheKey.String`. -/
def cacheKeyPayload (k : CacheKey) : String :=
  let n := normalizeKey k
  String.intercalate "\n"
    [n.RepoPath, n.HEADHash, String.intercalate "," n.Emails, n.TimeRange, n.Branch,
      if n.AllBranch then "true" else "false"]

/-- `CacheKey.String`: the stable per-entry file name.  The SHA-256 digest
of the canonical payload is abstracted by the payload itself — an
injective fingerprint, which is the property the layout relies on. -/
def cacheKeyString (k : CacheKey) : String :=
  let n := normalizeKey k
  let repoName0 := sanitizeFileComponent (filepathBase n.RepoPath)
  let repoName := if repoName0 = "" then "repo" else repoName0
  repoName ++ "_" ++ cacheKeyPayload k ++ ".json"

/-- The cache directory contents: file name to entry. -/
def CacheStore : Type := List (String × CacheEntry)

instance : DecidableEq CacheStore := fun a b => List.hasDecEq a b

/-- `SaveCache(key, stats)` at instant `now`: write (atomically, in the
source) the entry holding the normalized key, a copy of the stats map and
the creation timestamp, at the key's file name. -/
def SaveCache (store : CacheStore) (key : CacheKey) (stats : List (String × Int))
    (now : GoTime) : CacheStore :=
  assocInsertReplace store (cacheKeyString key) ⟨normalizeKey key, stats, now⟩

/-- `LoadCache(key)`: read and decode the entry at the key's file name;
a missing file is the not-found error. -/
def LoadCache (store : CacheStore) (key : CacheKey) : Except String CacheEntry :=
  match assocLookup store (cacheKeyString key) with
  | some e => .ok e
  | none => .error "file does not exist"

/-! ## Per-repository walker (`collector.go`) -/

/-- A commit as the walker observes it: hash, author email, author
timestamp.  Hashes are numbers, `0` being the zero hash. -/
structure Commit where
  Hash : Nat
  AuthorEmail : String
  AuthorWhen : GoTime
deriving DecidableEq, Repr

/-- `BranchOption`: single named branch, or all local branches. -/
structure BranchOption where
  Branch : String
  AllBranches : Bool
deriving DecidableEq, Repr

/-- An opened repository, by its observable behaviour: the `HEAD`
resolution result (`none` models a resolution error), reference lookup by
full reference name, the local branch tips in iteration order, and the
commit iterator from a start hash. -/
structure GitRepo where
  HeadRef : Option Nat
  Refs : String → Option Nat
  Branches : List Nat
  Log : Nat → Except String (List Commit)

/-- `resolveNormalizeEmail`: a `nil` normalizer defaults to the identity. -/
def resolveNormalizeEmail (f : Option (String → String)) : String → String :=
  f.getD id

/-- The reference name resolved for `--branch`: verbatim when it already
starts with `refs/`, otherwise a local branch reference. -/
def branchRefName (branch : String) : String :=
  if strStartsWith branch "refs/" then branch else "refs/heads/" ++ branch

/-- De-duplicate branch tips by hash, preserving order, dropping zero
hashes, as the `AllBranches` arm of `collectStartPoints` does. -/
def dedupTips : List Nat → List Nat → List Nat
  | [], _ => []
  | h :: rest, seenTips =>
    if h = 0 ∨ h ∈ seenTips then dedupTips rest seenTips
    else h :: dedupTips rest (h :: seenTips)

/-- `collectStartPoints`: the start hashes for the requested traversal
scope; `AllBranches` wins over a named branch, the default is `HEAD`. -/
def collectStartPoints (repo : GitRepo) (repoPath : String) (branch : BranchOption) :
    Except String (List Nat) :=
  if branch.AllBranches then
    .ok (dedupTips repo.Branches [])
  else if branch.Branch ≠ "" then
    match repo.Refs (branchRefName branch.Branch) with
    | none => .error ("repo " ++ repoPath ++ ": branch " ++ branch.Branch ++ " not found")
    | some h =>
      if h = 0 then .error ("repo " ++ repoPath ++ ": branch " ++ branch.Branch ++ " has no commits")
      else .ok [h]
  else
    match repo.HeadRef with
    | none => .error ("head repo " ++ repoPath ++ ": reference not found")
    | some h =>
      if h = 0 then .error ("repo " ++ repoPath ++ ": HEAD has no commits")
      else .ok [h]

/-- The body of one iterator's `ForEach`, fold form.  Per commit: the
hash-seen prune (scope `All` only), then email normalisation and filter,
then the day-window checks, then the visitor.  The state is the seen-hash
set plus the visitor state; a `none` step is `storer.ErrStop`. -/
def runIter {σ : Type} (allB : Bool) (emailSet : List String) (norm : String → String)
    (startDayKey endDayKey : Int) (visit : σ → String → Int → σ) :
    List Commit → List Nat → σ → List Nat × σ
  | [], seen, s => (seen, s)
  | c :: rest, seen, s =>
    if allB ∧ c.Hash ∈ seen then (seen, s)
    else
      let seen' := if allB then c.Hash :: seen else seen
      let email := norm c.AuthorEmail
      if emailSet ≠ [] ∧ email ∉ emailSet then
        runIter allB emailSet norm startDayKey endDayKey visit rest seen' s
      else
        let commitDayKey := dayKeyFromTime c.AuthorWhen
        if endDayKey < commitDayKey then
          runIter allB emailSet norm startDayKey endDayKey visit rest seen' s
        else if commitDayKey < startDayKey then
          runIter allB emailSet norm startDayKey endDayKey visit rest seen' s
        else
          runIter allB emailSet norm startDayKey endDayKey visit rest seen'
            (visit s email commitDayKey)

/-- The loop of `walkRepoCommits` over the start points, threading the
shared seen-hash set through the per-start-point iterators. -/
def walkPoints {σ : Type} (repo : GitRepo) (repoPath : String) (allB : Bool)
    (emailSet : List String) (norm : String → String) (startDayKey endDayKey : Int)
    (visit : σ → String → Int → σ) :
    List Nat → List Nat → σ → Except String (List Nat × σ)
  | [], seen, s => .ok (seen, s)
  | h :: hs, seen, s =>
    match repo.Log h with
    | .error e => .error ("log repo " ++ repoPath ++ ": " ++ e)
    | .ok cs =>
      let r := runIter allB emailSet norm startDayKey endDayKey visit cs seen s
      walkPoints repo repoPath allB emailSet norm startDayKey endDayKey visit hs r.1 r.2

/-- `walkRepoCommits`: resolve the start points, then run every iterator
with the shared seen-hash set, feeding each counted commit to `visitor`. -/
def walkRepoCommits {σ : Type} (repo : GitRepo) (repoPath : String)
    (startDayKey endDayKey : Int) (emailSet : List String) (branch : BranchOption)
    (normalizeEmail : Option (String → String)) (visit : σ → String → Int → σ) (init : σ) :
    Except String σ :=
  match collectStartPoints repo repoPath branch with
  | .error e => .error e
  | .ok startPoints =>
    match walkPoints repo repoPath branch.AllBranches emailSet
        (resolveNormalizeEmail normalizeEmail) startDayKey endDayKey visit
        startPoints [] init with
    | .error e => .error e
    | .ok r => .ok r.2

/-! Ghost companions of the walk: the commits an iterator still processes
(the prune cuts the rest), and the commits the visitor is invoked on. -/

/-- The prefix of an iterator's commit list that is processed before the
hash-seen prune stops it; determined by hashes alone. -/
def processedIter (allB : Bool) : List Commit → List Nat → List Commit
  | [], _ => []
  | c :: rest, seen =>
    if allB ∧ c.Hash ∈ seen then []
    else c :: processedIter allB rest (if allB then c.Hash :: seen else seen)

/-- Whether a processed commit reaches the visitor: email filter and
day-window checks of the iterator body. -/
def commitCounted (emailSet : List String) (norm : String → String)
    (startDayKey endDayKey : Int) (c : Commit) : Prop :=
  (emailSet = [] ∨ norm c.AuthorEmail ∈ emailSet) ∧
    startDayKey ≤ dayKeyFromTime c.AuthorWhen ∧ dayKeyFromTime c.AuthorWhen ≤ endDayKey

instance (emailSet : List String) (norm : String → String) (sK eK : Int) (c : Commit) :
    Decidable (commitCounted emailSet norm sK eK c) := by
  unfold commitCounted; infer_instance

/-- Seen-set and visited-commit trace of one iterator run. -/
def visitedIter (allB : Bool) (emailSet : List String) (norm : String → String)
    (startDayKey endDayKey : Int) : List Commit → List Nat → List Nat × List Commit
  | [], seen => (seen, [])
  | c :: rest, seen =>
    if allB ∧ c.Hash ∈ seen then (seen, [])
    else
      let seen' := if allB then c.Hash :: seen else seen
      let r := visitedIter allB emailSet norm startDayKey endDayKey rest seen'
      if commitCounted emailSet norm startDayKey endDayKey c then (r.1, c :: r.2)
      else (r.1, r.2)

/-- Visited-commit trace of the whole walk across the start points. -/
def walkTracePoints (repo : GitRepo) (repoPath : String) (allB : Bool)
    (emailSet : List String) (norm : String → String) (startDayKey endDayKey : Int) :
    List Nat → List Nat → Except String (List Nat × List Commit)
  | [], seen => .ok (seen, [])
  | h :: hs, seen =>
    match repo.Log h with
    | .error e => .error ("log repo " ++ repoPath ++ ": " ++ e)
    | .ok cs =>
      let r := visitedIter allB emailSet norm startDayKey endDayKey cs seen
      match walkTracePoints repo repoPath allB emailSet norm startDayKey endDayKey hs r.1 with
      | .error e => .error e
      | .ok r' => .ok (r'.1, r.2 ++ r'.2)

/-- The visit trace of `walkRepoCommits`: the commits fed to the visitor,
in visit order. -/
def walkTrace (repo : GitRepo) (repoPath : String) (startDayKey endDayKey : Int)
    (emailSet : List String) (branch : BranchOption)
    (normalizeEmail : Option (String → String)) : Except String (List Commit) :=
  match collectStartPoints repo repoPath branch with
  | .error e => .error e
  | .ok startPoints =>
    match walkTracePoints repo repoPath branch.AllBranches emailSet
        (resolveNormalizeEmail normalizeEmail) startDayKey endDayKey startPoints [] with
    | .error e => .error e
    | .ok r => .ok r.2

/-- `collectRepoFromRepository`: the walk with the global day-bucket
visitor `out[dayKey]++`. -/
def collectRepoFromRepository (repo : GitRepo) (repoPath : String)
    (startDayKey endDayKey : Int) (emailSet : List String) (branch : BranchOption)
    (normalizeEmail : Option (String → String)) : Except String (List (Int × Int)) :=
  walkRepoCommits repo repoPath startDayKey endDayKey emailSet branch normalizeEmail
    (fun out _ dayKey => assocInsertAdd out dayKey 1) []

/-- The per-email visitor: `out[email][dayKey]++` with lazy bucket
creation. -/
def bumpEmailDay (out : List (String × List (Int × Int))) (email : String) (dayKey : Int) :
    List (String × List (Int × Int)) :=
  match assocLookup out email with
  | some daily => assocInsertReplace out email (assocInsertAdd daily dayKey 1)
  | none => out ++ [(email, [(dayKey, 1)])]

/-- `collectRepoByEmailsFromRepository`: the walk with the per-email
bucketing visitor. -/
def collectRepoByEmailsFromRepository (repo : GitRepo) (repoPath : String)
    (startDayKey endDayKey : Int) (emailSet : List String) (branch : BranchOption)
    (normalizeEmail : Option (String → String)) :
    Except String (List (String × List (Int × Int))) :=
  walkRepoCommits repo repoPath startDayKey endDayKey emailSet branch normalizeEmail
    (fun out email dayKey => bumpEmailDay out email dayKey) []

/-! ## Cached per-repository collection (`collectRepo`) -/

/-- Zero-pad a natural number to `w` digits. -/
def padNat (w : Nat) (n : Nat) : String :=
  let s := toString n
  if s.length < w then String.mk (List.replicate (w - s.length) '0') ++ s else s

/-- `Format("2006-01-02")` of an instant's civil date. -/
def formatDate (t : GoTime) : String :=
  let c := civilFromDays t.day
  padNat 4 c.1.toNat ++ "-" ++ padNat 2 c.2.1.toNat ++ "-" ++ padNat 2 c.2.2.toNat

/-- `dayKeyToDateString`: the day key rendered as an ISO date. -/
def dayKeyToDateString (dayKey : Int) : String :=
  formatDate (dayKeyToTime dayKey)

/-- `dateStringToDayKey`: strict `"2006-01-02"` parse (fixed widths,
month and day-of-month range checks), then the day key of the date. -/
def dateStringToDayKey (day : String) : Except String Int :=
  let s := goTrim day
  match splitOnChar '-' s with
  | [ys, ms, ds] =>
    if ys.length = 4 ∧ ms.length = 2 ∧ ds.length = 2 ∧
        ys.data.all Char.isDigit ∧ ms.data.all Char.isDigit ∧ ds.data.all Char.isDigit then
      let y := digitsVal ys.data
      let m := digitsVal ms.data
      let d := digitsVal ds.data
      if 1 ≤ m ∧ m ≤ 12 ∧ 1 ≤ d ∧ (d : Int) ≤ monthLength y m then
        .ok ((y : Int) * 10000 + (m : Int) * 100 + (d : Int))
      else .error ("parse cache day " ++ day ++ ": out of range")
    else .error ("parse cache day " ++ day ++ ": bad format")
  | _ => .error ("parse cache day " ++ day ++ ": bad format")

/-- `toCachedStats`: day keys rendered to ISO-date strings. -/
def toCachedStats (daily : List (Int × Int)) : List (String × Int) :=
  daily.map (fun p => (dayKeyToDateString p.1, p.2))

/-- `fromCachedStats`: parse every ISO-date key back to a day key; any
parse failure fails the whole conversion. -/
def fromCachedStats : List (String × Int) → Except String (List (Int × Int))
  | [] => .ok []
  | (day, count) :: rest =>
    match dateStringToDayKey day with
    | .error e => .error e
    | .ok dayKey =>
      match fromCachedStats rest with
      | .error e => .error e
      | .ok out => .ok (assocInsertReplace out dayKey count)

/-- `sortedEmails`: the canonical email list of a cache key. -/
def sortedEmails (emailSet : List String) : List String :=
  if emailSet = [] then [] else List.insertionSort strLe emailSet

/-- `buildRepoCacheKey`. -/
def buildRepoCacheKey (repoPath headHash : String) (startDayKey endDayKey : Int)
    (emailSet : List String) (branch : BranchOption) : CacheKey :=
  { RepoPath := repoPath
    HEADHash := headHash
    Emails := sortedEmails emailSet
    TimeRange := dayKeyToDateString startDayKey ++ "_" ++ dayKeyToDateString endDayKey
    Branch := branch.Branch
    AllBranch := branch.AllBranches }

/-- `collectRepo`: the cached single-repository collection.  `repoRes`
stands for the `os.Stat` + `PlainOpen` step (`.error` models either
failure).  With the cache enabled, `HEAD` is resolved first — regardless
of the requested traversal scope — to build the cache key; a cache hit
that decodes returns immediately; otherwise the walk runs and its result
is saved (the source ignores save failures).  The store is threaded
explicitly. -/
def collectRepo (repoRes : Except String GitRepo) (repoPath : String)
    (startDayKey endDayKey : Int) (emailSet : List String) (branch : BranchOption)
    (normalizeEmail : Option (String → String)) (useCache : Bool)
    (store : CacheStore) (now : GoTime) : Except String (List (Int × Int) × CacheStore) :=
  match repoRes with
  | .error e => .error e
  | .ok repo =>
    if useCache then
      match repo.HeadRef with
      | none => .error ("head repo " ++ repoPath ++ ": reference not found")
      | some h =>
        let cacheKey := buildRepoCacheKey repoPath (toString h) startDayKey endDayKey
          emailSet branch
        let hit : Option (List (Int × Int)) :=
          match LoadCache store cacheKey with
          | .ok entry =>
            match fromCachedStats entry.Stats with
            | .ok daily => some daily
            | .error _ => none
          | .error _ => none
        match hit with
        | some daily => .ok (daily, store)
        | none =>
          match collectRepoFromRepository repo repoPath startDayKey endDayKey emailSet
              branch normalizeEmail with
          | .error e => .error e
          | .ok stats => .ok (stats, SaveCache store cacheKey (toCachedStats stats) now)
    else
      match collectRepoFromRepository repo repoPath startDayKey endDayKey emailSet
          branch normalizeEmail with
      | .error e => .error e
      | .ok stats => .ok (stats, store)

/-! ## Collection orchestrator (`CollectStats` and friends)

The source fans tasks out over a semaphore-bounded goroutine pool and
merges under a mutex; the merges are commutative and per-repository, so
the model is the sequential fold in repository-list order.  The package
variable `collectRepoFn` (a test seam in the source) appears here as the
explicit `collectFn` parameter. -/

/-- The signature shared by `collectRepo`-style task functions, with the
filesystem and clock already applied. -/
def CollectorFn (T : Type) : Type :=
  String → Int → Int → List String → BranchOption → (String → String) → Bool →
    Except String T

/-- `CollectOptions`. -/
structure CollectOptions where
  Repos : List String
  Emails : List String
  Since : GoTime
  Until : GoTime
  Branch : String
  AllBranch : Bool
  UseCache : Bool
  NormalizeEmail : Option (String → String)

/-- `normalizeBranchOption`: trim the branch name and reject setting both
a named branch and all-branches. -/
def normalizeBranchOption (opt : BranchOption) : Except String BranchOption :=
  let b := goTrim opt.Branch
  if b ≠ "" ∧ opt.AllBranches then
    .error "--branch and --all-branches are mutually exclusive"
  else .ok { Branch := b, AllBranches := opt.AllBranches }

/-- The canonical email filter set: inputs in order, empties dropped,
normalized, empties dropped again, de-duplicated (a Go map of keys). -/
def buildEmailSet (emails : List String) (norm : String → String) : List String :=
  emails.foldl
    (fun acc e0 =>
      if e0 = "" then acc
      else
        let e := norm e0
        if e = "" then acc
        else if e ∈ acc then acc else acc ++ [e])
    []

/-- One task of `collectCommonGeneric`: classify the repository into the
aggregate / done list or the error list. -/
def collectStep {T A : Type} (collectFn : CollectorFn T) (aggregator : A → String → T → A)
    (startDayKey endDayKey : Int) (emailSet : List String) (branch : BranchOption)
    (norm : String → String) (useCache : Bool)
    (acc : A × List String × List String) (repoPath : String) :
    A × List String × List String :=
  match collectFn repoPath startDayKey endDayKey emailSet branch norm useCache with
  | .ok t => (aggregator acc.1 repoPath t, acc.2.1 ++ [repoPath], acc.2.2)
  | .error e => (acc.1, acc.2.1, acc.2.2 ++ [e])

/-- `collectCommonGeneric`: validation, canonicalisation, then the
per-repository task fan-out (modelled as a fold).  Returns the aggregate,
the list of repositories that succeeded, and the recorded errors. -/
def collectCommonGeneric {T A : Type} (opts : CollectOptions) (collectFn : CollectorFn T)
    (aggregator : A → String → T → A) (init : A) :
    Except String (A × List String × List String) :=
  if opts.Since = goZeroTime then .error "start must be set"
  else if opts.Until = goZeroTime then .error "end must be set"
  else
    match normalizeBranchOption ⟨opts.Branch, opts.AllBranch⟩ with
    | .error e => .error e
    | .ok branch =>
      let start := beginningOfDay opts.Since
      let endT := beginningOfDay opts.Until
      if timeAfter start endT then .error "start must be <= end"
      else
        let startDayKey := dayKeyFromTime start
        let endDayKey := dayKeyFromTime endT
        let norm := resolveNormalizeEmail opts.NormalizeEmail
        let emailSet := buildEmailSet opts.Emails norm
        .ok (opts.Repos.foldl
          (collectStep collectFn aggregator startDayKey endDayKey emailSet branch norm
            opts.UseCache)
          (init, [], []))

/-- The aggregator of `CollectStats`: add each repository's day counts
into the global day map (keys converted to instants). -/
def aggGlobal (out : List (GoTime × Int)) (_repoPath : String) (daily : List (Int × Int)) :
    List (GoTime × Int) :=
  daily.foldl (fun o p => assocInsertAdd o (dayKeyToTime p.1) p.2) out

/-- `CollectStats`: global day-count keying.  A `none` first component is
the source's `nil` map. -/
def CollectStats (collectFn : CollectorFn (List (Int × Int))) (repos emails : List String)
    (start endT : GoTime) (branch : BranchOption) (normalizeEmail : Option (String → String))
    (useCache : Bool) : Option (List (GoTime × Int)) × List String :=
  match collectCommonGeneric
      { Repos := repos, Emails := emails, Since := start, Until := endT
        Branch := branch.Branch, AllBranch := branch.AllBranches
        UseCache := useCache, NormalizeEmail := normalizeEmail }
      collectFn aggGlobal [] with
  | .error e => (none, [e])
  | .ok (out, done, errs) =>
    if errs ≠ [] ∧ done = [] then (none, errs) else (some out, errs)

/-- Convert one repository's day-key map to an instant-keyed map by
assignment (`stats[dayKeyToTime(k)] = v`), as the per-repo aggregator
does. -/
def convAssign (daily : List (Int × Int)) : List (GoTime × Int) :=
  daily.foldl (fun st p => assocInsertReplace st (dayKeyToTime p.1) p.2) []

/-- The aggregator of `CollectStatsPerRepo`: store each repository's
converted map under its path (assignment). -/
def aggPerRepo (out : List (String × List (GoTime × Int))) (repoPath : String)
    (daily : List (Int × Int)) : List (String × List (GoTime × Int)) :=
  assocInsertReplace out repoPath (convAssign daily)

/-- `CollectStatsPerRepo`: per-repository keying. -/
def CollectStatsPerRepo (collectFn : CollectorFn (List (Int × Int)))
    (repos emails : List String) (start endT : GoTime) (branch : BranchOption)
    (normalizeEmail : Option (String → String)) (useCache : Bool) :
    Option (List (String × List (GoTime × Int))) × List String :=
  match collectCommonGeneric
      { Repos := repos, Emails := emails, Since := start, Until := endT
        Branch := branch.Branch, AllBranch := branch.AllBranches
        UseCache := useCache, NormalizeEmail := normalizeEmail }
      collectFn aggPerRepo [] with
  | .error e => (none, [e])
  | .ok (out, done, errs) =>
    if errs ≠ [] ∧ done = [] then (none, errs) else (some out, errs)

/-- The aggregator of `CollectStatsByEmails`: merge each repository's
per-email day-key buckets additively into the shared map. -/
def aggByEmails (out : List (String × List (Int × Int))) (_repoPath : String)
    (byEmail : List (String × List (Int × Int))) : List (String × List (Int × Int)) :=
  byEmail.foldl
    (fun o pr =>
      let target := (assocLookup o pr.1).getD []
      assocInsertReplace o pr.1 (pr.2.foldl (fun t q => assocInsertAdd t q.1 q.2) target))
    out

/-- `CollectStatsByEmails`: per-identity keying; day keys are converted to
instants only after the total-failure check. -/
def CollectStatsByEmails (collectFn : CollectorFn (List (String × List (Int × Int))))
    (repos emails : List String) (start endT : GoTime) (branch : BranchOption)
    (normalizeEmail : Option (String → String)) (useCache : Bool) :
    Option (List (String × List (GoTime × Int))) × List String :=
  match collectCommonGeneric
      { Repos := repos, Emails := emails, Since := start, Until := endT
        Branch := branch.Branch, AllBranch := branch.AllBranches
        UseCache := useCache, NormalizeEmail := normalizeEmail }
      collectFn aggByEmails [] with
  | .error e => (none, [e])
  | .ok (out, done, errs) =>
    if errs ≠ [] ∧ done = [] then (none, errs)
    else (some (out.map (fun pr => (pr.1, convAssign pr.2))), errs)

/-! Specification-side observers of the orchestrator's fold. -/

/-- Whether the task function succeeds on one repository. -/
def collectOk {T : Type} (collectFn : CollectorFn T) (startDayKey endDayKey : Int)
    (emailSet : List String) (branch : BranchOption) (norm : String → String)
    (useCache : Bool) (repoPath : String) : Bool :=
  (collectFn repoPath startDayKey endDayKey emailSet branch norm useCache).isOk

/-- The succeeded repositories with their results, in list order. -/
def collectSuccesses {T : Type} (collectFn : CollectorFn T) (startDayKey endDayKey : Int)
    (emailSet : List String) (branch : BranchOption) (norm : String → String)
    (useCache : Bool) (repos : List String) : List (String × T) :=
  repos.filterMap (fun p =>
    (collectFn p startDayKey endDayKey emailSet branch norm useCache).toOption.map
      (fun t => (p, t)))

/-- The recorded per-repository errors, in list order. -/
def collectFailures {T : Type} (collectFn : CollectorFn T) (startDayKey endDayKey : Int)
    (emailSet : List String) (branch : BranchOption) (norm : String → String)
    (useCache : Bool) (repos : List String) : List String :=
  repos.filterMap (fun p =>
    match collectFn p startDayKey endDayKey emailSet branch norm useCache with
    | .error e => some e
    | .ok _ => none)

/-- The total count a day-key map contributes to the instant `t` once its
keys are converted by `dayKeyToTime`. -/
def convSum (daily : List (Int × Int)) (t : GoTime) : Int :=
  ((daily.filter (fun pr => dayKeyToTime pr.1 == t)).map Prod.snd).sum

/-! ## Ranking engine (`internal/stats/ranking.go`) -/

/-- One ranked repository row; `Percent` (`float64` in the source, always
a multiple of 0.1) is modelled by `ℚ`. -/
structure RepoRank where
  Repository : String
  Commits : Int
  Percent : ℚ
deriving DecidableEq, Repr

/-- `RepoRanking`. -/
structure RepoRanking where
  Repositories : List RepoRank
  TotalCommits : Int
deriving DecidableEq, Repr

/-- `percentRemainder`: the data the largest-remainder pass sorts by. -/
structure percentRemainder where
  index : Nat
  remainder : Int
  commits : Int
  repo : String
deriving DecidableEq, Repr

/-- The row order: commits descending, ties by repository ascending. -/
def rankLess (a b : RepoRank) : Prop :=
  b.Commits < a.Commits ∨ (a.Commits = b.Commits ∧ strLe a.Repository b.Repository)

instance : DecidableRel rankLess := by
  intro a b; unfold rankLess; infer_instance

/-- The remainder order: remainder descending, then commits descending,
then repository ascending. -/
def remLess (a b : percentRemainder) : Prop :=
  b.remainder < a.remainder ∨
    (a.remainder = b.remainder ∧
      (b.commits < a.commits ∨ (a.commits = b.commits ∧ strLe a.repo b.repo)))

instance : DecidableRel remLess := by
  intro a b; unfold remLess; infer_instance

/-- `units[i]++`. -/
def incrAt (l : List Int) (i : Nat) : List Int :=
  l.set i (l.getD i 0 + 1)

/-- The per-repository total: day counts summed, non-positive entries
skipped. -/
def repoTotal (daily : List (GoTime × Int)) : Int :=
  daily.foldl (fun t p => if p.2 ≤ 0 then t else t + p.2) 0

/-- `RankRepositories`: fold each repository to its total, sort, truncate
to `limit` if positive, then allocate tenth-of-percent units by floor
division with the deficit going to the largest remainders. -/
def RankRepositories (statsPerRepo : List (String × List (GoTime × Int))) (limit : Int) :
    RepoRanking :=
  let rows0 := statsPerRepo.map (fun pr =>
    { Repository := pr.1, Commits := repoTotal pr.2, Percent := 0 : RepoRank })
  let rows1 := List.insertionSort rankLess rows0
  let rows := if 0 < limit ∧ limit < rows1.length then rows1.take limit.toNat else rows1
  let totalCommits := rows.foldl (fun t r => t + r.Commits) 0
  if totalCommits ≤ 0 then
    { Repositories := rows, TotalCommits := 0 }
  else
    let units0 := rows.map (fun r => (r.Commits * 1000).tdiv totalCommits)
    let rems := rows.enum.map (fun ir =>
      { index := ir.1, remainder := (ir.2.Commits * 1000).tmod totalCommits
        commits := ir.2.Commits, repo := ir.2.Repository : percentRemainder })
    let sumUnits := units0.foldl (fun a b => a + b) (0 : Int)
    let left := 1000 - sumUnits
    let units :=
      if 0 < left then
        ((List.insertionSort remLess rems).take left.toNat).foldl
          (fun u pr => incrAt u pr.index) units0
      else units0
    { Repositories := List.zipWith (fun r u => { r with Percent := (u : ℚ) / 10 }) rows units
      TotalCommits := totalCommits }

/-! ## Calendar lemmas -/

theorem isLeapYear_iff (y : Int) :
    isLeapYear y = true ↔ ((y % 4 = 0 ∧ ¬ y % 100 = 0) ∨ y % 400 = 0) := by
  simp [isLeapYear, Bool.or_eq_true, Bool.and_eq_true, beq_iff_eq, bne_iff_ne, ne_eq]

theorem daysInYear_eq (y : Int) :
    daysInYear y = daysBeforeYear (y + 1) - daysBeforeYear y := by
  unfold daysInYear daysBeforeYear
  split
  · next hb => have h := (isLeapYear_iff y).mp hb; omega
  · next hb =>
      have h : ¬ ((y % 4 = 0 ∧ ¬ y % 100 = 0) ∨ y % 400 = 0) :=
        fun hc => hb ((isLeapYear_iff y).mpr hc)
      omega

theorem daysInYear_pos (y : Int) : 0 < daysInYear y := by
  unfold daysInYear; split <;> omega

theorem yearScan_spec : ∀ (fuel : Nat) (y r : Int), 0 ≤ r →
    r < daysBeforeYear (y + fuel) - daysBeforeYear y →
    daysBeforeYear (yearScan fuel y r).1 + (yearScan fuel y r).2 = daysBeforeYear y + r ∧
    0 ≤ (yearScan fuel y r).2 ∧ (yearScan fuel y r).2 < daysInYear (yearScan fuel y r).1 := by
  intro fuel
  induction fuel with
  | zero =>
      intro y r h0 h1
      simp only [Nat.cast_zero, add_zero] at h1
      omega
  | succ n ih =>
      intro y r h0 h1
      rw [yearScan]
      split
      · next hlt => exact ⟨by ring, h0, hlt⟩
      · next hge =>
          have hd := daysInYear_eq y
          have h0' : 0 ≤ r - daysInYear y := by omega
          have h1' : r - daysInYear y < daysBeforeYear (y + 1 + n) - daysBeforeYear (y + 1) := by
            have h2 : y + ((n + 1 : Nat) : Int) = y + 1 + n := by push_cast; ring
            rw [h2] at h1
            omega
          have := ih (y + 1) (r - daysInYear y) h0' h1'
          omega

theorem monthLength_pos (y m : Int) : 0 < monthLength y m := by
  unfold monthLength; split
  · split <;> omega
  · split <;> omega

theorem daysBeforeMonth_succ (y m : Int) (h1 : 1 ≤ m) (h2 : m ≤ 12) :
    daysBeforeMonth y (m + 1) = daysBeforeMonth y m + monthLength y m := by
  unfold daysBeforeMonth monthLength
  by_cases h : isLeapYear y = true <;>
    simp only [h, if_true, if_false] <;> interval_cases m <;> norm_num

theorem monthScan_spec : ∀ (fuel : Nat) (y m r : Int), 1 ≤ m → m + fuel ≤ 13 → 0 ≤ r →
    r < daysBeforeMonth y (m + fuel) - daysBeforeMonth y m →
    daysBeforeMonth y (monthScan fuel y m r).1 + (monthScan fuel y m r).2 =
      daysBeforeMonth y m + r ∧
    0 ≤ (monthScan fuel y m r).2 ∧
    (monthScan fuel y m r).2 < monthLength y (monthScan fuel y m r).1 ∧
    1 ≤ (monthScan fuel y m r).1 ∧ (monthScan fuel y m r).1 ≤ 12 := by
  intro fuel
  induction fuel with
  | zero =>
      intro y m r h1 h2 h0 hlt
      simp only [Nat.cast_zero, add_zero] at hlt
      omega
  | succ n ih =>
      intro y m r h1 h2 h0 hlt
      have h2' : m + ((n : Int) + 1) ≤ 13 := by exact_mod_cast h2
      have hm12 : m ≤ 12 := by omega
      rw [monthScan]
      split
      · next hm => exact ⟨by ring, h0, hm, h1, hm12⟩
      · next hge =>
          have hsucc := daysBeforeMonth_succ y m h1 hm12
          have hlt' : r - monthLength y m <
              daysBeforeMonth y ((m + 1) + n) - daysBeforeMonth y (m + 1) := by
            have he : m + ((n + 1 : Nat) : Int) = (m + 1) + n := by push_cast; ring
            rw [he] at hlt
            omega
          have := ih y (m + 1) (r - monthLength y m) (by omega) (by omega) (by omega) hlt'
          omega

theorem daysBeforeYear_era (era : Int) :
    daysBeforeYear (era * 400 + 1) = era * 146097 := by
  unfold daysBeforeYear
  have h4 : era * 400 / 4 = era * 100 := by omega
  have h100 : era * 400 / 100 = era * 4 := by omega
  have h400 : era * 400 / 400 = era := by omega
  have he : era * 400 + 1 - 1 = era * 400 := by ring
  rw [he, h4, h100, h400]
  ring

theorem daysBeforeMonth_one (y : Int) : daysBeforeMonth y 1 = 0 := by
  unfold daysBeforeMonth
  norm_num

theorem daysBeforeMonth_13 (y : Int) : daysBeforeMonth y 13 = daysInYear y := by
  unfold daysBeforeMonth daysInYear
  rw [if_neg (by norm_num), if_neg (by norm_num), if_neg (by norm_num), if_neg (by norm_num),
    if_neg (by norm_num), if_neg (by norm_num), if_neg (by norm_num), if_neg (by norm_num),
    if_neg (by norm_num), if_neg (by norm_num), if_neg (by norm_num), if_neg (by norm_num)]
  split <;> norm_num

theorem civilFromDays_spec (z : Int) :
    daysFromCivil (civilFromDays z).1 (civilFromDays z).2.1 (civilFromDays z).2.2 = z ∧
    1 ≤ (civilFromDays z).2.1 ∧ (civilFromDays z).2.1 ≤ 12 ∧
    1 ≤ (civilFromDays z).2.2 ∧
    (civilFromDays z).2.2 ≤ monthLength (civilFromDays z).1 (civilFromDays z).2.1 := by
  unfold civilFromDays
  dsimp only
  set a := z + 719162 with ha
  set era := a / 146097 with hera
  set doe := a - era * 146097 with hdoe
  have hdoe0 : 0 ≤ doe := by omega
  have hdoe1 : doe < 146097 := by omega
  have hcycle : daysBeforeYear (era * 400 + 1 + 400) - daysBeforeYear (era * 400 + 1) = 146097 := by
    unfold daysBeforeYear
    have e1 : era * 400 + 1 + 400 - 1 = era * 400 + 400 := by ring
    have e2 : era * 400 + 1 - 1 = era * 400 := by ring
    rw [e1, e2]
    omega
  have hys := yearScan_spec 400 (era * 400 + 1) doe hdoe0 (by push_cast; omega)
  set yr := yearScan 400 (era * 400 + 1) doe with hyr
  have hms := monthScan_spec 12 yr.1 1 yr.2 (by norm_num) (by norm_num) hys.2.1
    (by rw [show (1 : Int) + (12 : Nat) = 13 by norm_num, daysBeforeMonth_13,
          daysBeforeMonth_one]; omega)
  set mr := monthScan 12 yr.1 1 yr.2 with hmr
  have hbase := daysBeforeYear_era era
  refine ⟨?_, hms.2.2.2.1, hms.2.2.2.2, by omega, by omega⟩
  unfold daysFromCivil
  have h1 := hms.1
  rw [daysBeforeMonth_one] at h1
  omega

theorem daysFromCivil_day_shift (y m d k : Int) :
    daysFromCivil y m (d + k) = daysFromCivil y m d + k := by
  unfold daysFromCivil
  ring

theorem goDateDays_of_valid_month (y m d : Int) (h1 : 1 ≤ m) (h2 : m ≤ 12) :
    goDateDays y m d = daysFromCivil y m d := by
  unfold goDateDays
  dsimp only
  have hdiv : (m - 1) / 12 = 0 := by omega
  have hmod : (m - 1) % 12 = m - 1 := by omega
  rw [hdiv, hmod]
  norm_num

theorem goDateDays_civilFromDays (z d : Int) :
    goDateDays (civilFromDays z).1 (civilFromDays z).2.1 d =
      z + (d - (civilFromDays z).2.2) := by
  have hs := civilFromDays_spec z
  rw [goDateDays_of_valid_month _ _ _ hs.2.1 hs.2.2.1]
  have he : d = (civilFromDays z).2.2 + (d - (civilFromDays z).2.2) := by ring
  rw [he, daysFromCivil_day_shift, hs.1]
  ring

theorem goAddDate_days_day (t : GoTime) (k : Int) :
    goAddDate t 0 0 k = ⟨t.day + k, t.sec⟩ := by
  unfold goAddDate
  dsimp only
  rw [show (civilFromDays t.day).1 + 0 = (civilFromDays t.day).1 by ring,
    show (civilFromDays t.day).2.1 + 0 = (civilFromDays t.day).2.1 by ring,
    goDateDays_civilFromDays]
  congr 1
  ring

theorem weekday_bounds (z : Int) : 0 ≤ weekdayOfDay z ∧ weekdayOfDay z < 7 := by
  unfold weekdayOfDay
  omega

theorem sundayLoop_closed (fuel : Nat) (t : GoTime)
    (h : weekdayOfDay t.day ≤ fuel) :
    sundayLoop fuel t = ⟨t.day - weekdayOfDay t.day, t.sec⟩ := by
  induction fuel generalizing t with
  | zero =>
      have := weekday_bounds t.day
      have hz : weekdayOfDay t.day = 0 := by exact_mod_cast le_antisymm (by exact_mod_cast h) this.1
      rw [sundayLoop]
      rw [hz]
      simp
  | succ n ih =>
      rw [sundayLoop]
      split
      · next hz => rw [hz]; simp
      · next hnz =>
          rw [goAddDate_days_day]
          have hw := weekday_bounds t.day
          have hstep : weekdayOfDay (t.day + -1) = weekdayOfDay t.day - 1 := by
            unfold weekdayOfDay at *
            omega
          rw [ih ⟨t.day + -1, t.sec⟩ (by dsimp only; rw [hstep]; omega)]
          dsimp only
          rw [hstep]
          congr 1
          ring

theorem heatmapStart_closed (now : GoTime) (months : Int) :
    heatmapStart now months =
      ⟨(goAddDate now 0 (-months) 0).day - weekdayOfDay (goAddDate now 0 (-months) 0).day,
        0⟩ := by
  unfold heatmapStart beginningOfDay
  rw [sundayLoop_closed 7 ⟨(goAddDate now 0 (-months) 0).day, 0⟩
    (by have := weekday_bounds (goAddDate now 0 (-months) 0).day; dsimp only; omega)]

/-! ## Claim C7: the default time window -/

/-- **C7.** When both the since and until input strings are empty and
`months ≥ 1`, `TimeRange` returns `Until` = beginning of the current day
and `Since` = the beginning of the day `months` calendar months before
`now`, walked backward day by day to the nearest Sunday (so `Since` is a
Sunday at most six days before that base day); with `months ≤ 0` it
returns an error.  Quantified over the date parser, which this branch
never consults. -/
theorem timeRange_empty_strings_default_window
    (parseDate : String → Except String GoTime) (months : Int) (now : GoTime) :
    (months ≤ 0 →
      TimeRange parseDate "" "" months now =
        .error ("months must be > 0, got " ++ toString months)) ∧
    (0 < months →
      TimeRange parseDate "" "" months now =
        .ok (heatmapStart now months, beginningOfDay now) ∧
      heatmapStart now months =
        sundayLoop 7 (beginningOfDay (goAddDate now 0 (-months) 0)) ∧
      (heatmapStart now months).sec = 0 ∧
      weekdayOfDay (heatmapStart now months).day = 0 ∧
      (heatmapStart now months).day ≤ (goAddDate now 0 (-months) 0).day ∧
      (goAddDate now 0 (-months) 0).day - (heatmapStart now months).day < 7) := by
  have htrim : goTrim "" = "" := by decide
  constructor
  · intro hm
    unfold TimeRange
    rw [htrim]
    rw [if_pos ⟨rfl, rfl⟩, if_pos hm]
  · intro hm
    refine ⟨?_, rfl, ?_, ?_, ?_, ?_⟩
    · unfold TimeRange
      rw [htrim]
      rw [if_pos ⟨rfl, rfl⟩, if_neg (by omega)]
    · rw [heatmapStart_closed]
    · rw [heatmapStart_closed]
      have := weekday_bounds (goAddDate now 0 (-months) 0).day
      unfold weekdayOfDay at *
      dsimp only
      omega
    · rw [heatmapStart_closed]
      have := weekday_bounds (goAddDate now 0 (-months) 0).day
      dsimp only
      omega
    · rw [heatmapStart_closed]
      have := weekday_bounds (goAddDate now 0 (-months) 0).day
      dsimp only
      omega

/-- Witness for C7 at `months = 6`, `now` = 2024-01-02 00:00:30 (epoch
day 19724): the window runs from Sunday 2023-07-02 (epoch day 19540) to
2024-01-02. -/
theorem timeRange_empty_strings_default_window_witness :
    (0 : Int) < 6 ∧
    TimeRange (fun _ => .error "unused") "" "" 6 ⟨19724, 30⟩ =
      .ok (⟨19540, 0⟩, ⟨19724, 0⟩) ∧
    weekdayOfDay 19540 = 0 := by
  have h := (timeRange_empty_strings_default_window
    (fun _ => .error "unused") 6 ⟨19724, 30⟩).2 (by norm_num)
  exact ⟨by norm_num, h.1.trans (by decide), by decide⟩

/-! ## Claim C6: percent change -/

/-- **C6.** `CalculatePercentChange` returns `(0, defined)` when both
inputs are zero, an undefined result when only `from` is zero, and
`((to - from)/from * 100, defined)` otherwise. -/
theorem calculatePercentChange_cases (x y : ℚ) :
    (x = 0 → y = 0 → CalculatePercentChange x y = ⟨0, true⟩) ∧
    (x = 0 → y ≠ 0 → (CalculatePercentChange x y).Defined = false) ∧
    (x ≠ 0 → CalculatePercentChange x y = ⟨(y - x) / x * 100, true⟩) := by
  unfold CalculatePercentChange
  refine ⟨fun h1 h2 => ?_, fun h1 h2 => ?_, fun h1 => ?_⟩
  · rw [if_pos h1, if_pos h2]
  · rw [if_pos h1, if_neg h2]
  · rw [if_neg h1]

/-- Witness for C6 at `from = 10`, `to = 20`: a defined `+100%`. -/
theorem calculatePercentChange_cases_witness :
    (10 : ℚ) ≠ 0 ∧ CalculatePercentChange 10 20 = ⟨100, true⟩ :=
  ⟨by norm_num,
    ((calculatePercentChange_cases 10 20).2.2 (by norm_num)).trans (by norm_num)⟩

/-! ## Claim C4: the identity normalizer -/

/-- **C4 (counterexample).** The claim says a trimmed-nonempty input that
matches no alias member comes back trimmed; on the input `" bob@x.com "`
against a non-matching alias table, `NormalizeEmail` returns the input
verbatim, not its trimmed form (the source's own comment documents
returning the original input). -/
theorem normalizeEmail_returns_untrimmed_counterexample :
    goTrim " bob@x.com " ≠ "" ∧
    firstMatchingPrimary (goTrim " bob@x.com ")
      [⟨"Alice", ["alice@work.com", "alice@home.com"]⟩] = none ∧
    Config.NormalizeEmail ⟨6, "", [⟨"Alice", ["alice@work.com", "alice@home.com"]⟩]⟩
      " bob@x.com " = " bob@x.com " ∧
    " bob@x.com " ≠ goTrim " bob@x.com " := by
  refine ⟨by decide, by decide, by decide, by decide⟩

/-- The alias scan returns the first matching group's trimmed primary, or
the fallback. -/
theorem normalizeEmailLoop_eq_firstMatchingPrimary (target fallback : String) :
    ∀ aliases : List Alias,
      normalizeEmailLoop target fallback aliases =
        (firstMatchingPrimary target aliases).getD fallback := by
  intro aliases
  induction aliases with
  | nil => rfl
  | cons a rest ih =>
      unfold normalizeEmailLoop firstMatchingPrimary
      match h : a.Emails with
      | [] => exact ih
      | primary :: others =>
          dsimp only
          split
          · rfl
          · exact ih

/-- **C4 (amended).** For an input whose trimmed form is non-empty,
`NormalizeEmail` returns the first matching group's primary email trimmed
exactly as stored, and on no match returns the input **unchanged** (not
trimmed). -/
theorem normalizeEmail_first_match_or_input (c : Config) (email : String)
    (h : goTrim email ≠ "") :
    Config.NormalizeEmail c email =
      (firstMatchingPrimary (goTrim email) c.Aliases).getD email := by
  unfold Config.NormalizeEmail
  split
  · next hnil => rw [hnil]; rfl
  · next hnil =>
      dsimp only
      rw [if_neg h]
      exact normalizeEmailLoop_eq_firstMatchingPrimary _ _ _

/-- Witness for C4 (amended): filtering by the member `"ALICE@HOME.COM"`
returns the stored primary `"alice@work.com"` trimmed as stored, and a
non-matching untrimmed input comes back verbatim. -/
theorem normalizeEmail_first_match_or_input_witness :
    goTrim "ALICE@HOME.COM" ≠ "" ∧
    Config.NormalizeEmail ⟨6, "", [⟨"Alice", [" alice@work.com ", "alice@home.com"]⟩]⟩
      "ALICE@HOME.COM" = "alice@work.com" ∧
    goTrim " bob@y.com " ≠ "" ∧
    Config.NormalizeEmail ⟨6, "", [⟨"Alice", [" alice@work.com ", "alice@home.com"]⟩]⟩
      " bob@y.com " = " bob@y.com " := by
  refine ⟨by decide, ?_, by decide, ?_⟩
  · exact (normalizeEmail_first_match_or_input
      ⟨6, "", [⟨"Alice", [" alice@work.com ", "alice@home.com"]⟩]⟩ "ALICE@HOME.COM"
      (by decide)).trans (by decide)
  · exact (normalizeEmail_first_match_or_input
      ⟨6, "", [⟨"Alice", [" alice@work.com ", "alice@home.com"]⟩]⟩ " bob@y.com "
      (by decide)).trans (by decide)

/-! ## Claim C5: cache round trip -/

/-- Writing then reading the same map key yields the written value. -/
theorem assocLookup_insertReplace_self {α β : Type} [DecidableEq α]
    (l : List (α × β)) (k : α) (v : β) :
    assocLookup (assocInsertReplace l k v) k = some v := by
  induction l with
  | nil => simp [assocInsertReplace, assocLookup]
  | cons p rest ih =>
      unfold assocInsertReplace
      split
      · next h => unfold assocLookup; rw [if_pos h]
      · next h => unfold assocLookup; rw [if_neg h]; exact ih

/-- **C5 (counterexample).** `SaveCache` stores the *normalized* key, so
`Load` after `Save` on a key with unnormalized fields (here: untrimmed
repository path, unsorted emails) returns an entry whose `Key` differs
from the key passed in, refuting "Key equals k" as stated. -/
theorem saveCache_key_normalized_counterexample :
    LoadCache
        (SaveCache [] ⟨" /tmp/repo ", "h", ["b", "a"], "2024-01-01_2024-06-30", "", false⟩
          [("2024-01-02", 3)] ⟨19724, 0⟩)
        ⟨" /tmp/repo ", "h", ["b", "a"], "2024-01-01_2024-06-30", "", false⟩ =
      .ok ⟨⟨"/tmp/repo", "h", ["a", "b"], "2024-01-01_2024-06-30", "", false⟩,
        [("2024-01-02", 3)], ⟨19724, 0⟩⟩ ∧
    normalizeKey ⟨" /tmp/repo ", "h", ["b", "a"], "2024-01-01_2024-06-30", "", false⟩ ≠
      ⟨" /tmp/repo ", "h", ["b", "a"], "2024-01-01_2024-06-30", "", false⟩ := by
  refine ⟨by decide, by decide⟩

/-- **C5 (amended).** `SaveCache(k, m)` followed by `LoadCache(k)`
succeeds and returns the entry whose `Key` is `normalizeKey k` (so equals
`k` exactly when `k` is already normalized), whose `Stats` equal `m`, and
whose creation time is the save instant — over any prior store state. -/
theorem saveCache_loadCache_roundtrip (store : CacheStore) (k : CacheKey)
    (stats : List (String × Int)) (now : GoTime) :
    LoadCache (SaveCache store k stats now) k = .ok ⟨normalizeKey k, stats, now⟩ := by
  unfold LoadCache SaveCache
  rw [assocLookup_insertReplace_self]

/-! ## Walker lemmas: linking the iterator to its ghost trace -/

theorem runIter_eq_visited {σ : Type} (allB : Bool) (es : List String)
    (norm : String → String) (sK eK : Int) (visit : σ → String → Int → σ) :
    ∀ (cs : List Commit) (seen : List Nat) (s : σ),
      runIter allB es norm sK eK visit cs seen s =
        ((visitedIter allB es norm sK eK cs seen).1,
          (visitedIter allB es norm sK eK cs seen).2.foldl
            (fun st c => visit st (norm c.AuthorEmail) (dayKeyFromTime c.AuthorWhen)) s) := by
  intro cs
  induction cs with
  | nil => intro seen s; rfl
  | cons c rest ih =>
      intro seen s
      rw [runIter, visitedIter]
      by_cases h1 : allB = true ∧ c.Hash ∈ seen
      · rw [if_pos h1, if_pos h1]
        rfl
      · rw [if_neg h1, if_neg h1]
        dsimp only
        by_cases h2 : es ≠ [] ∧ norm c.AuthorEmail ∉ es
        · rw [if_pos h2]
          have hcc : ¬ commitCounted es norm sK eK c := by
            unfold commitCounted
            intro hc
            rcases hc.1 with h | h
            · exact h2.1 h
            · exact h2.2 h
          rw [if_neg hcc]
          exact ih _ _
        · rw [if_neg h2]
          by_cases h3 : eK < dayKeyFromTime c.AuthorWhen
          · rw [if_pos h3]
            have hcc : ¬ commitCounted es norm sK eK c := by
              unfold commitCounted; omega
            rw [if_neg hcc]
            exact ih _ _
          · rw [if_neg h3]
            by_cases h4 : dayKeyFromTime c.AuthorWhen < sK
            · rw [if_pos h4]
              have hcc : ¬ commitCounted es norm sK eK c := by
                unfold commitCounted; omega
              rw [if_neg hcc]
              exact ih _ _
            · rw [if_neg h4]
              have hcc : commitCounted es norm sK eK c := by
                unfold commitCounted
                refine ⟨?_, by omega, by omega⟩
                by_cases he : es = []
                · exact Or.inl he
                · push_neg at h2
                  exact Or.inr (h2 he)
              rw [if_pos hcc]
              exact ih _ _

theorem visitedIter_eq_filter_processed (allB : Bool) (es : List String)
    (norm : String → String) (sK eK : Int) :
    ∀ (cs : List Commit) (seen : List Nat),
      (visitedIter allB es norm sK eK cs seen).2 =
        (processedIter allB cs seen).filter
          (fun c => decide (commitCounted es norm sK eK c)) := by
  intro cs
  induction cs with
  | nil => intro seen; rfl
  | cons c rest ih =>
      intro seen
      rw [visitedIter, processedIter]
      by_cases h1 : allB = true ∧ c.Hash ∈ seen
      · rw [if_pos h1, if_pos h1]; rfl
      · rw [if_neg h1, if_neg h1]
        dsimp only
        by_cases hcc : commitCounted es norm sK eK c
        · rw [if_pos hcc, List.filter_cons,
            if_pos (show decide (commitCounted es norm sK eK c) = true by simpa using hcc)]
          rw [ih]
        · rw [if_neg hcc, List.filter_cons,
            if_neg (show ¬ decide (commitCounted es norm sK eK c) = true by simpa using hcc)]
          rw [ih]

theorem processedIter_of_not_all (cs : List Commit) :
    ∀ seen : List Nat, processedIter false cs seen = cs := by
  induction cs with
  | nil => intro seen; rfl
  | cons c rest ih =>
      intro seen
      rw [processedIter]
      rw [if_neg (by simp)]
      rw [ih]

theorem processedIter_hash_determined (allB : Bool) :
    ∀ (cs cs' : List Commit) (seen : List Nat),
      cs.map Commit.Hash = cs'.map Commit.Hash →
      (processedIter allB cs' seen).length = (processedIter allB cs seen).length := by
  intro cs
  induction cs with
  | nil =>
      intro cs' seen h
      cases cs' with
      | nil => rfl
      | cons _ _ => simp at h
  | cons c rest ih =>
      intro cs' seen h
      cases cs' with
      | nil => simp at h
      | cons c' rest' =>
          simp only [List.map_cons, List.cons.injEq] at h
          rw [processedIter, processedIter, h.1]
          by_cases h1 : allB = true ∧ c'.Hash ∈ seen
          · rw [if_pos h1, if_pos h1]
          · rw [if_neg h1, if_neg h1]
            simp only [List.length_cons]
            rw [ih rest' (if allB then c'.Hash :: seen else seen) h.2]

theorem lookupD_insertAdd {α : Type} [DecidableEq α] (l : List (α × Int)) (k k' : α) (v : Int) :
    lookupD (assocInsertAdd l k v) k' = lookupD l k' + (if k = k' then v else 0) := by
  induction l with
  | nil =>
      unfold assocInsertAdd lookupD assocLookup
      by_cases h : k = k'
      · rw [if_pos h, if_pos h]; simp [assocLookup]
      · rw [if_neg h, if_neg h]; simp [assocLookup]
  | cons p rest ih =>
      unfold assocInsertAdd
      by_cases h : p.1 = k
      · rw [if_pos h]
        unfold lookupD assocLookup
        by_cases h2 : p.1 = k'
        · rw [if_pos h2, if_pos h2]
          subst h
          rw [if_pos h2]
          simp
        · rw [if_neg h2, if_neg h2]
          subst h
          rw [if_neg (by intro hc; exact h2 hc)]
          simp
      · rw [if_neg h]
        unfold lookupD assocLookup
        by_cases h2 : p.1 = k'
        · rw [if_pos h2, if_pos h2]
          have : ¬ k = k' := by intro hc; exact h (h2.trans hc.symm)
          rw [if_neg this]
          simp
        · rw [if_neg h2, if_neg h2]
          exact ih

theorem countVisitor_fold (vs : List Commit) :
    ∀ (out : List (Int × Int)) (k : Int),
      lookupD (vs.foldl (fun o c => assocInsertAdd o (dayKeyFromTime c.AuthorWhen) 1) out) k =
        lookupD out k + (vs.countP (fun c => dayKeyFromTime c.AuthorWhen == k) : Int) := by
  induction vs with
  | nil => intro out k; simp [List.countP, List.countP.go]
  | cons c rest ih =>
      intro out k
      rw [List.foldl_cons, ih, lookupD_insertAdd, List.countP_cons]
      by_cases h : dayKeyFromTime c.AuthorWhen = k
      · rw [if_pos h]
        simp [h]
        omega
      · rw [if_neg h]
        simp [h]

/-! ## Claim C1: window filtering without timestamp-based termination -/

/-- **C1.** In one iterator run of the per-repository walk (with the
global day-bucket visitor): the prefix of commits the iterator processes
is the whole list whenever the scope is not `All`, and in general depends
only on the commit hash sequence (never on timestamps); and each
processed commit that passes the identity filter and whose author-day key
`k` satisfies `Since ≤ k ≤ Until` (boundaries included) increments bucket
`k` by exactly one, while out-of-window commits contribute nothing but do
not end the iteration. -/
theorem walkIterator_window_and_no_timestamp_stop (allB : Bool) (emailSet : List String)
    (norm : String → String) (startDayKey endDayKey : Int) (cs : List Commit)
    (seen : List Nat) (out : List (Int × Int)) :
    (allB = false → processedIter allB cs seen = cs) ∧
    (∀ cs' : List Commit, cs.map Commit.Hash = cs'.map Commit.Hash →
      (processedIter allB cs' seen).length = (processedIter allB cs seen).length) ∧
    (∀ k : Int,
      lookupD (runIter allB emailSet norm startDayKey endDayKey
          (fun o _ dayKey => assocInsertAdd o dayKey 1) cs seen out).2 k =
        lookupD out k +
          ((processedIter allB cs seen).countP
            (fun c => decide (commitCounted emailSet norm startDayKey endDayKey c) &&
              (dayKeyFromTime c.AuthorWhen == k)) : Int)) := by
  refine ⟨fun hf => ?_, fun cs' h => processedIter_hash_determined allB cs cs' seen h, fun k => ?_⟩
  · rw [hf]; exact processedIter_of_not_all cs seen
  · rw [runIter_eq_visited]
    dsimp only
    rw [countVisitor_fold, visitedIter_eq_filter_processed, List.countP_filter]
    have hfe : (fun a : Commit => (dayKeyFromTime a.AuthorWhen == k) &&
        decide (commitCounted emailSet norm startDayKey endDayKey a)) =
        (fun c : Commit => decide (commitCounted emailSet norm startDayKey endDayKey c) &&
          (dayKeyFromTime c.AuthorWhen == k)) := by
      funext c
      rw [Bool.and_comm]
    rw [hfe]

/-- Witness for C1: the out-of-order history (author days Jan 25, 20, 10,
15, 8 of 2024 in iterator order) against window `[20240110, 20240120]`:
every bucket inside the window gets its commit, the January 25 and
January 8 commits are skipped, and nothing stops the iterator early. -/
theorem walkIterator_window_and_no_timestamp_stop_witness :
    processedIter false
        [⟨5, "u@x", ⟨19747, 0⟩⟩, ⟨4, "u@x", ⟨19742, 0⟩⟩, ⟨3, "u@x", ⟨19732, 0⟩⟩,
          ⟨2, "u@x", ⟨19737, 0⟩⟩, ⟨1, "u@x", ⟨19730, 0⟩⟩] [] =
      [⟨5, "u@x", ⟨19747, 0⟩⟩, ⟨4, "u@x", ⟨19742, 0⟩⟩, ⟨3, "u@x", ⟨19732, 0⟩⟩,
        ⟨2, "u@x", ⟨19737, 0⟩⟩, ⟨1, "u@x", ⟨19730, 0⟩⟩] ∧
    lookupD (runIter false [] id 20240110 20240120
        (fun o _ dayKey => assocInsertAdd o dayKey 1)
        [⟨5, "u@x", ⟨19747, 0⟩⟩, ⟨4, "u@x", ⟨19742, 0⟩⟩, ⟨3, "u@x", ⟨19732, 0⟩⟩,
          ⟨2, "u@x", ⟨19737, 0⟩⟩, ⟨1, "u@x", ⟨19730, 0⟩⟩] [] []).2 20240110 = 1 ∧
    lookupD (runIter false [] id 20240110 20240120
        (fun o _ dayKey => assocInsertAdd o dayKey 1)
        [⟨5, "u@x", ⟨19747, 0⟩⟩, ⟨4, "u@x", ⟨19742, 0⟩⟩, ⟨3, "u@x", ⟨19732, 0⟩⟩,
          ⟨2, "u@x", ⟨19737, 0⟩⟩, ⟨1, "u@x", ⟨19730, 0⟩⟩] [] []).2 20240125 = 0 := by
  have h := walkIterator_window_and_no_timestamp_stop false [] id 20240110 20240120
    [⟨5, "u@x", ⟨19747, 0⟩⟩, ⟨4, "u@x", ⟨19742, 0⟩⟩, ⟨3, "u@x", ⟨19732, 0⟩⟩,
      ⟨2, "u@x", ⟨19737, 0⟩⟩, ⟨1, "u@x", ⟨19730, 0⟩⟩] [] []
  exact ⟨h.1 rfl, (h.2.2 20240110).trans (by decide), (h.2.2 20240125).trans (by decide)⟩

/-! ## Claim C2: all-branches dedup by hash -/

theorem visitedIter_fresh (es : List String) (norm : String → String) (sK eK : Int) :
    ∀ (cs : List Commit) (seen : List Nat),
      (∀ h ∈ seen, h ∈ (visitedIter true es norm sK eK cs seen).1) ∧
      (∀ c ∈ (visitedIter true es norm sK eK cs seen).2,
        c.Hash ∈ (visitedIter true es norm sK eK cs seen).1 ∧ c.Hash ∉ seen) ∧
      ((visitedIter true es norm sK eK cs seen).2.map Commit.Hash).Nodup := by
  intro cs
  induction cs with
  | nil =>
      intro seen
      exact ⟨fun h hh => hh, fun c hc => absurd hc (List.not_mem_nil c), List.nodup_nil⟩
  | cons c rest ih =>
      intro seen
      rw [visitedIter]
      by_cases h1 : true = true ∧ c.Hash ∈ seen
      · rw [if_pos h1]
        exact ⟨fun h hh => hh, fun c hc => absurd hc (List.not_mem_nil c), List.nodup_nil⟩
      · rw [if_neg h1]
        have hni : c.Hash ∉ seen := fun hm => h1 ⟨rfl, hm⟩
        dsimp only [if_pos rfl]
        have ihr := ih (c.Hash :: seen)
        have hmono : ∀ h ∈ seen, h ∈ (visitedIter true es norm sK eK rest (c.Hash :: seen)).1 :=
          fun h hh => ihr.1 h (List.mem_cons_of_mem _ hh)
        have hcin : c.Hash ∈ (visitedIter true es norm sK eK rest (c.Hash :: seen)).1 :=
          ihr.1 c.Hash (List.mem_cons_self _ _)
        by_cases hcc : commitCounted es norm sK eK c
        · rw [if_pos hcc]
          refine ⟨hmono, ?_, ?_⟩
          · intro d hd
            rcases List.mem_cons.mp hd with hd | hd
            · subst hd; exact ⟨hcin, hni⟩
            · have := ihr.2.1 d hd
              exact ⟨this.1, fun hm => this.2 (List.mem_cons_of_mem _ hm)⟩
          · rw [List.map_cons]
            refine List.nodup_cons.mpr ⟨?_, ihr.2.2⟩
            intro hm
            rcases List.mem_map.mp hm with ⟨d, hd, hdh⟩
            have := (ihr.2.1 d hd).2
            exact this (by rw [hdh]; exact List.mem_cons_self _ _)
        · rw [if_neg hcc]
          refine ⟨hmono, ?_, ihr.2.2⟩
          intro d hd
          have := ihr.2.1 d hd
          exact ⟨this.1, fun hm => this.2 (List.mem_cons_of_mem _ hm)⟩

theorem walkPoints_eq_tracePoints {σ : Type} (repo : GitRepo) (repoPath : String)
    (allB : Bool) (es : List String) (norm : String → String) (sK eK : Int)
    (visit : σ → String → Int → σ) :
    ∀ (hs : List Nat) (seen : List Nat) (s : σ),
      walkPoints repo repoPath allB es norm sK eK visit hs seen s =
        (walkTracePoints repo repoPath allB es norm sK eK hs seen).map
          (fun r => (r.1, r.2.foldl
            (fun st c => visit st (norm c.AuthorEmail) (dayKeyFromTime c.AuthorWhen)) s)) := by
  intro hs
  induction hs with
  | nil => intro seen s; rfl
  | cons h rest ih =>
      intro seen s
      rw [walkPoints, walkTracePoints]
      match hlog : repo.Log h with
      | .error e => rfl
      | .ok cs =>
          dsimp only
          rw [runIter_eq_visited]
          dsimp only
          rw [ih]
          match htr : walkTracePoints repo repoPath allB es norm sK eK rest
              (visitedIter allB es norm sK eK cs seen).1 with
          | .error e => rfl
          | .ok r =>
              dsimp only [Except.map]
              rw [List.foldl_append]

theorem walkTracePoints_nodup (repo : GitRepo) (repoPath : String) (es : List String)
    (norm : String → String) (sK eK : Int) :
    ∀ (hs : List Nat) (seen se : List Nat) (vs : List Commit),
      walkTracePoints repo repoPath true es norm sK eK hs seen = .ok (se, vs) →
      (∀ h ∈ seen, h ∈ se) ∧ (∀ c ∈ vs, c.Hash ∈ se ∧ c.Hash ∉ seen) ∧
      (vs.map Commit.Hash).Nodup := by
  intro hs
  induction hs with
  | nil =>
      intro seen se vs heq
      rw [walkTracePoints] at heq
      injection heq with heq
      injection heq with h1 h2
      subst h1; subst h2
      exact ⟨fun h hh => hh, fun c hc => absurd hc (List.not_mem_nil c), List.nodup_nil⟩
  | cons h rest ih =>
      intro seen se vs heq
      rw [walkTracePoints] at heq
      match hlog : repo.Log h with
      | .error e => rw [hlog] at heq; exact absurd heq (by simp)
      | .ok cs =>
          rw [hlog] at heq
          dsimp only at heq
          match htr : walkTracePoints repo repoPath true es norm sK eK rest
              (visitedIter true es norm sK eK cs seen).1 with
          | .error e => rw [htr] at heq; exact absurd heq (by simp)
          | .ok r =>
              rw [htr] at heq
              dsimp only at heq
              injection heq with heq
              injection heq with h1 h2
              subst h1
              have hvi := visitedIter_fresh es norm sK eK cs seen
              have hrec := ih (visitedIter true es norm sK eK cs seen).1 r.1 r.2 htr
              subst h2
              refine ⟨fun x hx => hrec.1 x (hvi.1 x hx), ?_, ?_⟩
              · intro d hd
                rcases List.mem_append.mp hd with hd | hd
                · have hf := hvi.2.1 d hd
                  exact ⟨hrec.1 d.Hash hf.1, hf.2⟩
                · have hf := hrec.2.1 d hd
                  exact ⟨hf.1, fun hm => hf.2 (hvi.1 d.Hash hm)⟩
              · rw [List.map_append]
                rw [List.nodup_append]
                refine ⟨hvi.2.2, hrec.2.2, ?_⟩
                intro x hx hx2
                rcases List.mem_map.mp hx with ⟨d, hd, hdh⟩
                rcases List.mem_map.mp hx2 with ⟨d2, hd2, hdh2⟩
                have h1 := hvi.2.1 d hd
                have h2 := hrec.2.1 d2 hd2
                exact h2.2 (by rw [hdh2, ← hdh]; exact h1.1)

/-- **C2.** Under scope `All`, the visitor of `walkRepoCommits` is
invoked at most once per commit hash across all start points: the visit
trace has pairwise-distinct hashes, and the walk's result is exactly the
visitor folded over that trace. -/
theorem walkRepo_all_branches_counts_each_hash_once {σ : Type} (repo : GitRepo)
    (repoPath : String) (sK eK : Int) (es : List String) (branch : BranchOption)
    (normalizeEmail : Option (String → String)) (visit : σ → String → Int → σ) (init : σ)
    (hall : branch.AllBranches = true) (vs : List Commit)
    (htrace : walkTrace repo repoPath sK eK es branch normalizeEmail = .ok vs) :
    (vs.map Commit.Hash).Nodup ∧
    walkRepoCommits repo repoPath sK eK es branch normalizeEmail visit init =
      .ok (vs.foldl
        (fun s c => visit s ((resolveNormalizeEmail normalizeEmail) c.AuthorEmail)
          (dayKeyFromTime c.AuthorWhen)) init) := by
  unfold walkTrace at htrace
  unfold walkRepoCommits
  match hsp : collectStartPoints repo repoPath branch with
  | .error e => rw [hsp] at htrace; exact absurd htrace (by simp)
  | .ok sp =>
      rw [hsp] at htrace
      dsimp only at htrace ⊢
      match htr : walkTracePoints repo repoPath branch.AllBranches es
          (resolveNormalizeEmail normalizeEmail) sK eK sp [] with
      | .error e => rw [htr] at htrace; exact absurd htrace (by simp)
      | .ok r =>
          rw [htr] at htrace
          dsimp only at htrace
          injection htrace with htrace
          subst htrace
          rw [hall] at htr
          constructor
          · exact (walkTracePoints_nodup repo repoPath es
              (resolveNormalizeEmail normalizeEmail) sK eK sp [] r.1 r.2 htr).2.2
          · rw [walkPoints_eq_tracePoints, hall, htr]
            rfl

/-- Witness for C2: two branches (tips `2` and `3`) sharing ancestor `1`;
the walk under scope `All` visits hashes `[2, 1, 3]` — each once — and
the day-count map counts the shared ancestor a single time (3 commits,
not 4). -/
theorem walkRepo_all_branches_counts_each_hash_once_witness :
    (BranchOption.mk "" true).AllBranches = true ∧
    walkTrace
        ⟨some 2, fun _ => none, [2, 3],
          fun h =>
            if h = 2 then .ok [⟨2, "u@x", ⟨19724, 0⟩⟩, ⟨1, "u@x", ⟨19723, 0⟩⟩]
            else if h = 3 then .ok [⟨3, "u@x", ⟨19725, 0⟩⟩, ⟨1, "u@x", ⟨19723, 0⟩⟩]
            else .error "missing"⟩
        "w" 20240101 20240131 [] ⟨"", true⟩ none =
      .ok [⟨2, "u@x", ⟨19724, 0⟩⟩, ⟨1, "u@x", ⟨19723, 0⟩⟩, ⟨3, "u@x", ⟨19725, 0⟩⟩] ∧
    (([⟨2, "u@x", ⟨19724, 0⟩⟩, ⟨1, "u@x", ⟨19723, 0⟩⟩,
        ⟨3, "u@x", ⟨19725, 0⟩⟩] : List Commit).map Commit.Hash).Nodup ∧
    collectRepoFromRepository
        ⟨some 2, fun _ => none, [2, 3],
          fun h =>
            if h = 2 then .ok [⟨2, "u@x", ⟨19724, 0⟩⟩, ⟨1, "u@x", ⟨19723, 0⟩⟩]
            else if h = 3 then .ok [⟨3, "u@x", ⟨19725, 0⟩⟩, ⟨1, "u@x", ⟨19723, 0⟩⟩]
            else .error "missing"⟩
        "w" 20240101 20240131 [] ⟨"", true⟩ none =
      .ok [(20240102, 1), (20240101, 1), (20240103, 1)] := by
  have h := walkRepo_all_branches_counts_each_hash_once
    (⟨some 2, fun _ => none, [2, 3],
      fun h =>
        if h = 2 then .ok [⟨2, "u@x", ⟨19724, 0⟩⟩, ⟨1, "u@x", ⟨19723, 0⟩⟩]
        else if h = 3 then .ok [⟨3, "u@x", ⟨19725, 0⟩⟩, ⟨1, "u@x", ⟨19723, 0⟩⟩]
        else .error "missing"⟩ : GitRepo)
    "w" 20240101 20240131 [] ⟨"", true⟩ none
    (fun o _ dayKey => assocInsertAdd o dayKey 1) [] rfl
    [⟨2, "u@x", ⟨19724, 0⟩⟩, ⟨1, "u@x", ⟨19723, 0⟩⟩, ⟨3, "u@x", ⟨19725, 0⟩⟩]
    (by decide)
  exact ⟨rfl, by decide, h.1, h.2.trans (by decide)⟩

/-! ## Claim C9: cache path resolves HEAD before consulting the cache -/

/-- **C9.** With caching enabled, `collectRepo` resolves `HEAD` before
consulting the cache, regardless of the requested traversal scope: a
repository whose `HEAD` cannot be resolved fails under a `Named` branch
scope even though the branch walk itself would succeed; with caching
disabled the very same walk succeeds. -/
theorem collectRepo_cache_requires_head (repo : GitRepo) (repoPath b : String)
    (startDayKey endDayKey : Int) (emailSet : List String)
    (normalizeEmail : Option (String → String)) (store : CacheStore) (now : GoTime)
    (stats : List (Int × Int))
    (hhead : repo.HeadRef = none) (_hb : b ≠ "")
    (hwalk : collectRepoFromRepository repo repoPath startDayKey endDayKey emailSet
      ⟨b, false⟩ normalizeEmail = .ok stats) :
    collectRepo (.ok repo) repoPath startDayKey endDayKey emailSet ⟨b, false⟩
        normalizeEmail true store now =
      .error ("head repo " ++ repoPath ++ ": reference not found") ∧
    collectRepo (.ok repo) repoPath startDayKey endDayKey emailSet ⟨b, false⟩
        normalizeEmail false store now = .ok (stats, store) := by
  constructor
  · unfold collectRepo
    dsimp only
    rw [if_pos rfl, hhead]
  · unfold collectRepo
    dsimp only
    rw [if_neg (by simp), hwalk]

/-- Witness for C9: a repository whose `HEAD` resolution fails while the
local branch `dev` (tip `5`, one January 2024 commit) exists: the cached
path errors, the uncached path returns the one-day count. -/
theorem collectRepo_cache_requires_head_witness :
    (⟨none, fun r => if r = "refs/heads/dev" then some 5 else none, [5],
        fun h => if h = 5 then .ok [⟨5, "u@x", ⟨19724, 0⟩⟩] else .error "missing"⟩ :
      GitRepo).HeadRef = none ∧
    ("dev" : String) ≠ "" ∧
    collectRepoFromRepository
        ⟨none, fun r => if r = "refs/heads/dev" then some 5 else none, [5],
          fun h => if h = 5 then .ok [⟨5, "u@x", ⟨19724, 0⟩⟩] else .error "missing"⟩
        "w" 20240101 20240131 [] ⟨"dev", false⟩ none = .ok [(20240102, 1)] ∧
    collectRepo
        (.ok ⟨none, fun r => if r = "refs/heads/dev" then some 5 else none, [5],
          fun h => if h = 5 then .ok [⟨5, "u@x", ⟨19724, 0⟩⟩] else .error "missing"⟩)
        "w" 20240101 20240131 [] ⟨"dev", false⟩ none true [] ⟨19724, 0⟩ =
      .error "head repo w: reference not found" ∧
    collectRepo
        (.ok ⟨none, fun r => if r = "refs/heads/dev" then some 5 else none, [5],
          fun h => if h = 5 then .ok [⟨5, "u@x", ⟨19724, 0⟩⟩] else .error "missing"⟩)
        "w" 20240101 20240131 [] ⟨"dev", false⟩ none false [] ⟨19724, 0⟩ =
      .ok ([(20240102, 1)], []) := by
  have h := collectRepo_cache_requires_head
    (⟨none, fun r => if r = "refs/heads/dev" then some 5 else none, [5],
      fun h => if h = 5 then .ok [⟨5, "u@x", ⟨19724, 0⟩⟩] else .error "missing"⟩ : GitRepo)
    "w" "dev" 20240101 20240131 [] none [] ⟨19724, 0⟩ [(20240102, 1)]
    rfl (by decide) (by decide)
  exact ⟨rfl, by decide, by decide, h.1.trans (by decide), h.2⟩

/-! ## Claim C8: error aggregation in the collection entry points -/

theorem collectFold_spec {T A : Type} (cf : CollectorFn T) (agg : A → String → T → A)
    (sK eK : Int) (es : List String) (br : BranchOption) (nm : String → String) (u : Bool) :
    ∀ (repos : List String) (acc : A × List String × List String),
      repos.foldl (collectStep cf agg sK eK es br nm u) acc =
        ((collectSuccesses cf sK eK es br nm u repos).foldl
            (fun a pt => agg a pt.1 pt.2) acc.1,
          acc.2.1 ++ repos.filter (collectOk cf sK eK es br nm u),
          acc.2.2 ++ collectFailures cf sK eK es br nm u repos) := by
  intro repos
  induction repos with
  | nil => intro acc; simp [collectSuccesses, collectFailures]
  | cons p rest ih =>
      intro acc
      rw [List.foldl_cons]
      match hcf : cf p sK eK es br nm u with
      | .ok t =>
          rw [ih]
          simp [collectStep, collectSuccesses, collectFailures, collectOk, hcf,
            Except.toOption, Except.isOk, Except.toBool, List.append_assoc]
      | .error e =>
          rw [ih]
          simp [collectStep, collectSuccesses, collectFailures, collectOk, hcf,
            Except.toOption, Except.isOk, Except.toBool, List.append_assoc]

/-- **C8.** Under passing validation, each collection entry point
(`CollectStats`, `CollectStatsPerRepo`, `CollectStatsByEmails`) returns a
`nil` result with the joined per-repository errors exactly when at least
one error was recorded and no repository succeeded; otherwise it returns
the aggregate over exactly the succeeded repositories, still paired with
every recorded failure.  Success, failure and contribution of each
repository are functions of that repository's own task result alone, so
one repository's failure never prevents the others from being
processed. -/
theorem collectEntryPoints_error_contract
    (cf : CollectorFn (List (Int × Int)))
    (cf2 : CollectorFn (List (String × List (Int × Int))))
    (repos emails : List String) (start endT : GoTime) (branch : BranchOption)
    (normalizeEmail : Option (String → String)) (useCache : Bool)
    (hs : start ≠ goZeroTime) (hu : endT ≠ goZeroTime)
    (hbr : ¬ (goTrim branch.Branch ≠ "" ∧ branch.AllBranches = true))
    (hord : ¬ timeAfter (beginningOfDay start) (beginningOfDay endT)) :
    CollectStats cf repos emails start endT branch normalizeEmail useCache =
      (if collectFailures cf (dayKeyFromTime (beginningOfDay start))
            (dayKeyFromTime (beginningOfDay endT))
            (buildEmailSet emails (resolveNormalizeEmail normalizeEmail))
            ⟨goTrim branch.Branch, branch.AllBranches⟩
            (resolveNormalizeEmail normalizeEmail) useCache repos ≠ [] ∧
          repos.filter (collectOk cf (dayKeyFromTime (beginningOfDay start))
            (dayKeyFromTime (beginningOfDay endT))
            (buildEmailSet emails (resolveNormalizeEmail normalizeEmail))
            ⟨goTrim branch.Branch, branch.AllBranches⟩
            (resolveNormalizeEmail normalizeEmail) useCache) = [] then none
       else some ((collectSuccesses cf (dayKeyFromTime (beginningOfDay start))
          (dayKeyFromTime (beginningOfDay endT))
          (buildEmailSet emails (resolveNormalizeEmail normalizeEmail))
          ⟨goTrim branch.Branch, branch.AllBranches⟩
          (resolveNormalizeEmail normalizeEmail) useCache repos).foldl
            (fun a pt => aggGlobal a pt.1 pt.2) []),
       collectFailures cf (dayKeyFromTime (beginningOfDay start))
         (dayKeyFromTime (beginningOfDay endT))
         (buildEmailSet emails (resolveNormalizeEmail normalizeEmail))
         ⟨goTrim branch.Branch, branch.AllBranches⟩
         (resolveNormalizeEmail normalizeEmail) useCache repos) ∧
    CollectStatsPerRepo cf repos emails start endT branch normalizeEmail useCache =
      (if collectFailures cf (dayKeyFromTime (beginningOfDay start))
            (dayKeyFromTime (beginningOfDay endT))
            (buildEmailSet emails (resolveNormalizeEmail normalizeEmail))
            ⟨goTrim branch.Branch, branch.AllBranches⟩
            (resolveNormalizeEmail normalizeEmail) useCache repos ≠ [] ∧
          repos.filter (collectOk cf (dayKeyFromTime (beginningOfDay start))
            (dayKeyFromTime (beginningOfDay endT))
            (buildEmailSet emails (resolveNormalizeEmail normalizeEmail))
            ⟨goTrim branch.Branch, branch.AllBranches⟩
            (resolveNormalizeEmail normalizeEmail) useCache) = [] then none
       else some ((collectSuccesses cf (dayKeyFromTime (beginningOfDay start))
          (dayKeyFromTime (beginningOfDay endT))
          (buildEmailSet emails (resolveNormalizeEmail normalizeEmail))
          ⟨goTrim branch.Branch, branch.AllBranches⟩
          (resolveNormalizeEmail normalizeEmail) useCache repos).foldl
            (fun a pt => aggPerRepo a pt.1 pt.2) []),
       collectFailures cf (dayKeyFromTime (beginningOfDay start))
         (dayKeyFromTime (beginningOfDay endT))
         (buildEmailSet emails (resolveNormalizeEmail normalizeEmail))
         ⟨goTrim branch.Branch, branch.AllBranches⟩
         (resolveNormalizeEmail normalizeEmail) useCache repos) ∧
    CollectStatsByEmails cf2 repos emails start endT branch normalizeEmail useCache =
      (if collectFailures cf2 (dayKeyFromTime (beginningOfDay start))
            (dayKeyFromTime (beginningOfDay endT))
            (buildEmailSet emails (resolveNormalizeEmail normalizeEmail))
            ⟨goTrim branch.Branch, branch.AllBranches⟩
            (resolveNormalizeEmail normalizeEmail) useCache repos ≠ [] ∧
          repos.filter (collectOk cf2 (dayKeyFromTime (beginningOfDay start))
            (dayKeyFromTime (beginningOfDay endT))
            (buildEmailSet emails (resolveNormalizeEmail normalizeEmail))
            ⟨goTrim branch.Branch, branch.AllBranches⟩
            (resolveNormalizeEmail normalizeEmail) useCache) = [] then none
       else some (((collectSuccesses cf2 (dayKeyFromTime (beginningOfDay start))
          (dayKeyFromTime (beginningOfDay endT))
          (buildEmailSet emails (resolveNormalizeEmail normalizeEmail))
          ⟨goTrim branch.Branch, branch.AllBranches⟩
          (resolveNormalizeEmail normalizeEmail) useCache repos).foldl
            (fun a pt => aggByEmails a pt.1 pt.2) []).map
              (fun pr => (pr.1, convAssign pr.2))),
       collectFailures cf2 (dayKeyFromTime (beginningOfDay start))
         (dayKeyFromTime (beginningOfDay endT))
         (buildEmailSet emails (resolveNormalizeEmail normalizeEmail))
         ⟨goTrim branch.Branch, branch.AllBranches⟩
         (resolveNormalizeEmail normalizeEmail) useCache repos) := by
  refine ⟨?_, ?_, ?_⟩
  · unfold CollectStats collectCommonGeneric normalizeBranchOption
    dsimp only
    rw [if_neg hs, if_neg hu, if_neg hbr]
    dsimp only
    rw [if_neg hord, collectFold_spec]
    dsimp only
    simp only [List.nil_append]
    split <;> rfl
  · unfold CollectStatsPerRepo collectCommonGeneric normalizeBranchOption
    dsimp only
    rw [if_neg hs, if_neg hu, if_neg hbr]
    dsimp only
    rw [if_neg hord, collectFold_spec]
    dsimp only
    simp only [List.nil_append]
    split <;> rfl
  · unfold CollectStatsByEmails collectCommonGeneric normalizeBranchOption
    dsimp only
    rw [if_neg hs, if_neg hu, if_neg hbr]
    dsimp only
    rw [if_neg hord, collectFold_spec]
    dsimp only
    simp only [List.nil_append]
    split <;> rfl

/-- Witness for C8 over January 2024 (no cache): with tasks succeeding on
`"a"` (2 commits on Jan 2) and `"c"` (1 commit) and failing on `"b"`, all
three entry points return the aggregate over `a` and `c` plus the error
for `b`; with only `"b"` the result is `nil` plus the error. -/
theorem collectEntryPoints_error_contract_witness :
    (⟨19723, 0⟩ : GoTime) ≠ goZeroTime ∧
    CollectStats
        (fun p _ _ _ _ _ _ =>
          if p = "a" then .ok [(20240102, 2)]
          else if p = "c" then .ok [(20240102, 1)]
          else .error ("stat repo " ++ p ++ ": fail"))
        ["a", "b", "c"] [] ⟨19723, 0⟩ ⟨19753, 0⟩ ⟨"", false⟩ none false =
      (some [(⟨19724, 0⟩, 3)], ["stat repo b: fail"]) ∧
    CollectStats
        (fun p _ _ _ _ _ _ =>
          if p = "a" then .ok [(20240102, 2)]
          else if p = "c" then .ok [(20240102, 1)]
          else .error ("stat repo " ++ p ++ ": fail"))
        ["b"] [] ⟨19723, 0⟩ ⟨19753, 0⟩ ⟨"", false⟩ none false =
      (none, ["stat repo b: fail"]) ∧
    CollectStatsPerRepo
        (fun p _ _ _ _ _ _ =>
          if p = "a" then .ok [(20240102, 2)]
          else if p = "c" then .ok [(20240102, 1)]
          else .error ("stat repo " ++ p ++ ": fail"))
        ["a", "b", "c"] [] ⟨19723, 0⟩ ⟨19753, 0⟩ ⟨"", false⟩ none false =
      (some [("a", [(⟨19724, 0⟩, 2)]), ("c", [(⟨19724, 0⟩, 1)])], ["stat repo b: fail"]) ∧
    CollectStatsByEmails
        (fun p _ _ _ _ _ _ =>
          if p = "a" then .ok [("u@x", [(20240102, 2)])] else .error "boom2")
        ["a", "b"] [] ⟨19723, 0⟩ ⟨19753, 0⟩ ⟨"", false⟩ none false =
      (some [("u@x", [(⟨19724, 0⟩, 2)])], ["boom2"]) := by
  have h1 := collectEntryPoints_error_contract
    (fun p _ _ _ _ _ _ =>
      if p = "a" then .ok [(20240102, 2)]
      else if p = "c" then .ok [(20240102, 1)]
      else .error ("stat repo " ++ p ++ ": fail"))
    (fun p _ _ _ _ _ _ =>
      if p = "a" then .ok [("u@x", [(20240102, 2)])] else .error "boom2")
    ["a", "b", "c"] [] ⟨19723, 0⟩ ⟨19753, 0⟩ ⟨"", false⟩ none false
    (by decide) (by decide) (by decide) (by decide)
  have h2 := collectEntryPoints_error_contract
    (fun p _ _ _ _ _ _ =>
      if p = "a" then .ok [(20240102, 2)]
      else if p = "c" then .ok [(20240102, 1)]
      else .error ("stat repo " ++ p ++ ": fail"))
    (fun p _ _ _ _ _ _ =>
      if p = "a" then .ok [("u@x", [(20240102, 2)])] else .error "boom2")
    ["b"] [] ⟨19723, 0⟩ ⟨19753, 0⟩ ⟨"", false⟩ none false
    (by decide) (by decide) (by decide) (by decide)
  have h3 := collectEntryPoints_error_contract
    (fun p _ _ _ _ _ _ =>
      if p = "a" then .ok [(20240102, 2)]
      else if p = "c" then .ok [(20240102, 1)]
      else .error ("stat repo " ++ p ++ ": fail"))
    (fun p _ _ _ _ _ _ =>
      if p = "a" then .ok [("u@x", [(20240102, 2)])] else .error "boom2")
    ["a", "b"] [] ⟨19723, 0⟩ ⟨19753, 0⟩ ⟨"", false⟩ none false
    (by decide) (by decide) (by decide) (by decide)
  exact ⟨by decide, h1.1.trans (by decide), h2.1.trans (by decide),
    h1.2.1.trans (by decide), h3.2.2.trans (by decide)⟩

/-! ## Claim C10: duplicate repository paths -/

theorem lookupD_insertReplace {α : Type} [DecidableEq α] (l : List (α × Int)) (k k' : α)
    (v : Int) :
    lookupD (assocInsertReplace l k v) k' = if k = k' then v else lookupD l k' := by
  induction l with
  | nil => by_cases h : k = k' <;> simp [assocInsertReplace, lookupD, assocLookup, h]
  | cons p rest ih =>
      by_cases h : p.1 = k
      · by_cases h2 : p.1 = k'
        · have hk : k = k' := h.symm.trans h2
          simp [assocInsertReplace, lookupD, assocLookup, h, h2, hk]
        · have hk : ¬ k = k' := fun hc => h2 (h.trans hc)
          simp [assocInsertReplace, lookupD, assocLookup, h, h2, hk]
      · by_cases h2 : p.1 = k'
        · have hk : ¬ k = k' := fun hc => h (h2.trans hc.symm)
          have hk2 : ¬ k' = k := fun hc => hk hc.symm
          simp [assocInsertReplace, lookupD, assocLookup, h, h2, hk, hk2]
        · simpa [assocInsertReplace, lookupD, assocLookup, h, h2] using ih

theorem insertReplace_fresh {α β : Type} [DecidableEq α] (l : List (α × β)) (k : α) (v : β)
    (h : k ∉ l.map Prod.fst) :
    assocInsertReplace l k v = l ++ [(k, v)] := by
  induction l with
  | nil => rfl
  | cons p rest ih =>
      rw [List.map_cons] at h
      unfold assocInsertReplace
      rw [if_neg (fun hc => h (List.mem_cons.mpr (Or.inl hc.symm)))]
      rw [ih (fun hm => h (List.mem_cons.mpr (Or.inr hm)))]
      rfl

theorem convSum_cons (pr : Int × Int) (rest : List (Int × Int)) (t : GoTime) :
    convSum (pr :: rest) t =
      (if dayKeyToTime pr.1 = t then pr.2 else 0) + convSum rest t := by
  by_cases h : dayKeyToTime pr.1 = t
  · simp [convSum, List.filter_cons, h]
  · simp [convSum, List.filter_cons, h]

theorem lookupD_aggGlobal (daily : List (Int × Int)) :
    ∀ (out : List (GoTime × Int)) (p : String) (t : GoTime),
      lookupD (aggGlobal out p daily) t = lookupD out t + convSum daily t := by
  induction daily with
  | nil => intro out p t; simp [aggGlobal, convSum]
  | cons pr rest ih =>
      intro out p t
      unfold aggGlobal at ih ⊢
      rw [List.foldl_cons, ih (assocInsertAdd out (dayKeyToTime pr.1) pr.2) p t,
        lookupD_insertAdd, convSum_cons]
      split_ifs <;> ring

theorem replicate_aggGlobal (stats : List (Int × Int)) (p : String) :
    ∀ (n : Nat) (out : List (GoTime × Int)) (t : GoTime),
      lookupD ((List.replicate n (p, stats)).foldl (fun a pt => aggGlobal a pt.1 pt.2) out) t =
        lookupD out t + n * convSum stats t := by
  intro n
  induction n with
  | zero => intro out t; simp
  | succ m ih =>
      intro out t
      rw [List.replicate_succ, List.foldl_cons, ih]
      rw [lookupD_aggGlobal]
      push_cast
      ring

theorem collectSuccesses_replicate {T : Type} (cf : CollectorFn T) (sK eK : Int)
    (es : List String) (br : BranchOption) (nm : String → String) (u : Bool)
    (p : String) (t : T) (hcf : cf p sK eK es br nm u = .ok t) :
    ∀ n : Nat, collectSuccesses cf sK eK es br nm u (List.replicate n p) =
      List.replicate n (p, t) := by
  intro n
  induction n with
  | zero => rfl
  | succ m ih =>
      rw [List.replicate_succ, List.replicate_succ]
      unfold collectSuccesses at ih ⊢
      rw [List.filterMap_cons, hcf]
      rw [ih]
      rfl

theorem collectFailures_replicate_ok {T : Type} (cf : CollectorFn T) (sK eK : Int)
    (es : List String) (br : BranchOption) (nm : String → String) (u : Bool)
    (p : String) (t : T) (hcf : cf p sK eK es br nm u = .ok t) :
    ∀ n : Nat, collectFailures cf sK eK es br nm u (List.replicate n p) = [] := by
  intro n
  induction n with
  | zero => rfl
  | succ m ih =>
      rw [List.replicate_succ]
      unfold collectFailures at ih ⊢
      rw [List.filterMap_cons, hcf]
      rw [ih]

theorem perRepo_fold_replicate_same (p : String) (stats : List (Int × Int)) :
    ∀ n : Nat, 0 < n →
      (List.replicate n (p, stats)).foldl (fun a pt => aggPerRepo a pt.1 pt.2) [] =
        [(p, convAssign stats)] := by
  have aux : ∀ m : Nat,
      (List.replicate m (p, stats)).foldl (fun a pt => aggPerRepo a pt.1 pt.2)
        [(p, convAssign stats)] = [(p, convAssign stats)] := by
    intro m
    induction m with
    | zero => rfl
    | succ k ih =>
        rw [List.replicate_succ, List.foldl_cons]
        have hstep : aggPerRepo [(p, convAssign stats)] p stats = [(p, convAssign stats)] := by
          unfold aggPerRepo assocInsertReplace
          rw [if_pos rfl]
        rw [hstep, ih]
  intro n hn
  match n, hn with
  | m + 1, _ =>
      rw [List.replicate_succ, List.foldl_cons]
      have hstep : aggPerRepo [] p stats = [(p, convAssign stats)] := rfl
      rw [hstep, aux]

theorem mem_collectSuccesses {T : Type} (cf : CollectorFn T) (sK eK : Int)
    (es : List String) (br : BranchOption) (nm : String → String) (u : Bool)
    (repos : List String) (pt : String × T)
    (h : pt ∈ collectSuccesses cf sK eK es br nm u repos) :
    cf pt.1 sK eK es br nm u = .ok pt.2 := by
  unfold collectSuccesses at h
  rcases List.mem_filterMap.mp h with ⟨q, _hq, hmap⟩
  match hcf : cf q sK eK es br nm u with
  | .ok t =>
      rw [hcf] at hmap
      simp only [Except.toOption, Option.map] at hmap
      injection hmap with hmap
      rw [← hmap]
      exact hcf
  | .error e =>
      rw [hcf] at hmap
      simp [Except.toOption] at hmap

theorem collectSuccesses_fst_sublist {T : Type} (cf : CollectorFn T) (sK eK : Int)
    (es : List String) (br : BranchOption) (nm : String → String) (u : Bool) :
    ∀ repos : List String,
      ((collectSuccesses cf sK eK es br nm u repos).map Prod.fst).Sublist repos := by
  intro repos
  induction repos with
  | nil => simp [collectSuccesses]
  | cons p rest ih =>
      unfold collectSuccesses at ih ⊢
      rw [List.filterMap_cons]
      match hcf : cf p sK eK es br nm u with
      | .ok t =>
          simp only [Except.toOption, Option.map]
          rw [List.map_cons]
          exact List.Sublist.cons₂ p ih
      | .error e =>
          simp only [Except.toOption, Option.map]
          exact List.Sublist.cons p ih

theorem convAssign_fold_no_key (rest : List (Int × Int)) (t : GoTime)
    (h : ∀ pr ∈ rest, dayKeyToTime pr.1 ≠ t) :
    ∀ acc : List (GoTime × Int),
      lookupD (rest.foldl (fun st p => assocInsertReplace st (dayKeyToTime p.1) p.2) acc) t =
        lookupD acc t := by
  induction rest with
  | nil => intro acc; rfl
  | cons pr rrest ih =>
      intro acc
      rw [List.foldl_cons]
      rw [ih (fun q hq => h q (List.mem_cons_of_mem _ hq))]
      rw [lookupD_insertReplace, if_neg (h pr (List.mem_cons_self _ _))]

theorem lookupD_convAssign (stats : List (Int × Int))
    (hnd : (stats.map (fun pr => dayKeyToTime pr.1)).Nodup) (t : GoTime) :
    lookupD (convAssign stats) t = convSum stats t := by
  suffices haux : ∀ (l : List (Int × Int)) (acc : List (GoTime × Int)),
      ((l.map (fun pr => dayKeyToTime pr.1)).Nodup) →
      lookupD (l.foldl (fun st p => assocInsertReplace st (dayKeyToTime p.1) p.2) acc) t =
        (if (l.map (fun pr => dayKeyToTime pr.1)).contains t then convSum l t
         else lookupD acc t) by
    unfold convAssign
    rw [haux stats [] hnd]
    split
    · rfl
    · next hc =>
        rw [show lookupD ([] : List (GoTime × Int)) t = 0 from rfl]
        unfold convSum
        rw [show (stats.filter (fun pr => dayKeyToTime pr.1 == t)) = [] from ?_]
        · rfl
        · rw [List.filter_eq_nil_iff]
          intro pr hpr hbe
          exact hc (by
            rw [List.contains_iff_exists_mem_beq]
            exact ⟨dayKeyToTime pr.1, List.mem_map_of_mem _ hpr,
              by simp only [beq_iff_eq] at hbe ⊢; exact hbe.symm⟩)
  intro l
  induction l with
  | nil => intro acc hnd2; simp
  | cons pr rest ih =>
      intro acc hnd2
      rw [List.map_cons, List.nodup_cons] at hnd2
      rw [List.foldl_cons]
      by_cases hc : dayKeyToTime pr.1 = t
      · have hnone : ∀ q ∈ rest, dayKeyToTime q.1 ≠ t := by
          intro q hq hqt
          exact hnd2.1 (by rw [← hc] at hqt; rw [← hqt]; exact List.mem_map_of_mem _ hq)
        rw [convAssign_fold_no_key rest t hnone]
        rw [lookupD_insertReplace, if_pos hc]
        have hcont : ((pr :: rest).map (fun pr => dayKeyToTime pr.1)).contains t = true := by
          rw [List.contains_iff_exists_mem_beq]
          exact ⟨dayKeyToTime pr.1, List.mem_map_of_mem _ (List.mem_cons_self _ _),
            by simp only [beq_iff_eq]; exact hc.symm⟩
        rw [if_pos hcont, convSum_cons, if_pos hc]
        have : convSum rest t = 0 := by
          unfold convSum
          rw [show (rest.filter (fun q => dayKeyToTime q.1 == t)) = [] from ?_]
          · rfl
          · rw [List.filter_eq_nil_iff]
            intro q hq hbe
            exact hnone q hq (by simpa using hbe)
        omega
      · rw [ih _ hnd2.2]
        rw [convSum_cons, if_neg hc]
        have hsplit : ((pr :: rest).map (fun pr => dayKeyToTime pr.1)).contains t =
            (rest.map (fun pr => dayKeyToTime pr.1)).contains t := by
          rw [List.map_cons]
          rw [List.contains_cons]
          have : (t == dayKeyToTime pr.1) = false := by
            simp only [beq_eq_false_iff_ne, ne_eq]
            exact fun hh => hc hh.symm
          rw [this]
          simp
        rw [hsplit]
        split
        · omega
        · rw [lookupD_insertReplace, if_neg hc]

theorem globalFold_eq_perRepoSum :
    ∀ (L : List (String × List (Int × Int))) (accG : List (GoTime × Int))
      (accP : List (String × List (GoTime × Int))),
      (L.map Prod.fst).Nodup →
      (∀ pt ∈ L, ((pt.2.map (fun pr => dayKeyToTime pr.1)).Nodup)) →
      (∀ pt ∈ L, pt.1 ∉ accP.map Prod.fst) →
      (∀ t, lookupD accG t = ((accP.map (fun e => lookupD e.2 t)).sum)) →
      ∀ t, lookupD (L.foldl (fun a pt => aggGlobal a pt.1 pt.2) accG) t =
        (((L.foldl (fun a pt => aggPerRepo a pt.1 pt.2) accP).map
          (fun e => lookupD e.2 t)).sum) := by
  intro L
  induction L with
  | nil => intro accG accP _ _ _ hinv t; exact hinv t
  | cons pt rest ih =>
      intro accG accP hnd hkeys hdisj hinv t
      rw [List.map_cons, List.nodup_cons] at hnd
      rw [List.foldl_cons, List.foldl_cons]
      have hfresh : pt.1 ∉ accP.map Prod.fst := hdisj pt (List.mem_cons_self _ _)
      have hstep : aggPerRepo accP pt.1 pt.2 = accP ++ [(pt.1, convAssign pt.2)] := by
        unfold aggPerRepo
        exact insertReplace_fresh accP pt.1 (convAssign pt.2) hfresh
      rw [hstep]
      refine ih (aggGlobal accG pt.1 pt.2) (accP ++ [(pt.1, convAssign pt.2)]) hnd.2
        (fun q hq => hkeys q (List.mem_cons_of_mem _ hq)) ?_ ?_ t
      · intro q hq
        rw [List.map_append, List.mem_append]
        rintro (hm | hm)
        · exact hdisj q (List.mem_cons_of_mem _ hq) hm
        · simp only [List.map_cons, List.map_nil, List.mem_singleton] at hm
          exact hnd.1 (hm ▸ List.mem_map_of_mem Prod.fst hq)
      · intro t2
        rw [lookupD_aggGlobal, hinv t2, List.map_append, List.sum_append]
        simp only [List.map_cons, List.map_nil, List.sum_cons, List.sum_nil]
        rw [lookupD_convAssign pt.2 (hkeys pt (List.mem_cons_self _ _)) t2]
        ring

theorem collectStats_eval (cf : CollectorFn (List (Int × Int)))
    (repos emails : List String) (start endT : GoTime) (branch : BranchOption)
    (normalizeEmail : Option (String → String)) (useCache : Bool)
    (hs : start ≠ goZeroTime) (hu : endT ≠ goZeroTime)
    (hbr : ¬ (goTrim branch.Branch ≠ "" ∧ branch.AllBranches = true))
    (hord : ¬ timeAfter (beginningOfDay start) (beginningOfDay endT)) :
    CollectStats cf repos emails start endT branch normalizeEmail useCache =
      (if collectFailures cf (dayKeyFromTime (beginningOfDay start))
            (dayKeyFromTime (beginningOfDay endT))
            (buildEmailSet emails (resolveNormalizeEmail normalizeEmail))
            ⟨goTrim branch.Branch, branch.AllBranches⟩
            (resolveNormalizeEmail normalizeEmail) useCache repos ≠ [] ∧
          repos.filter (collectOk cf (dayKeyFromTime (beginningOfDay start))
            (dayKeyFromTime (beginningOfDay endT))
            (buildEmailSet emails (resolveNormalizeEmail normalizeEmail))
            ⟨goTrim branch.Branch, branch.AllBranches⟩
            (resolveNormalizeEmail normalizeEmail) useCache) = [] then none
       else some ((collectSuccesses cf (dayKeyFromTime (beginningOfDay start))
          (dayKeyFromTime (beginningOfDay endT))
          (buildEmailSet emails (resolveNormalizeEmail normalizeEmail))
          ⟨goTrim branch.Branch, branch.AllBranches⟩
          (resolveNormalizeEmail normalizeEmail) useCache repos).foldl
            (fun a pt => aggGlobal a pt.1 pt.2) []),
       collectFailures cf (dayKeyFromTime (beginningOfDay start))
         (dayKeyFromTime (beginningOfDay endT))
         (buildEmailSet emails (resolveNormalizeEmail normalizeEmail))
         ⟨goTrim branch.Branch, branch.AllBranches⟩
         (resolveNormalizeEmail normalizeEmail) useCache repos) := by
  unfold CollectStats collectCommonGeneric normalizeBranchOption
  dsimp only
  rw [if_neg hs, if_neg hu, if_neg hbr]
  dsimp only
  rw [if_neg hord, collectFold_spec]
  dsimp only
  simp only [List.nil_append]
  split <;> rfl

theorem collectStatsPerRepo_eval (cf : CollectorFn (List (Int × Int)))
    (repos emails : List String) (start endT : GoTime) (branch : BranchOption)
    (normalizeEmail : Option (String → String)) (useCache : Bool)
    (hs : start ≠ goZeroTime) (hu : endT ≠ goZeroTime)
    (hbr : ¬ (goTrim branch.Branch ≠ "" ∧ branch.AllBranches = true))
    (hord : ¬ timeAfter (beginningOfDay start) (beginningOfDay endT)) :
    CollectStatsPerRepo cf repos emails start endT branch normalizeEmail useCache =
      (if collectFailures cf (dayKeyFromTime (beginningOfDay start))
            (dayKeyFromTime (beginningOfDay endT))
            (buildEmailSet emails (resolveNormalizeEmail normalizeEmail))
            ⟨goTrim branch.Branch, branch.AllBranches⟩
            (resolveNormalizeEmail normalizeEmail) useCache repos ≠ [] ∧
          repos.filter (collectOk cf (dayKeyFromTime (beginningOfDay start))
            (dayKeyFromTime (beginningOfDay endT))
            (buildEmailSet emails (resolveNormalizeEmail normalizeEmail))
            ⟨goTrim branch.Branch, branch.AllBranches⟩
            (resolveNormalizeEmail normalizeEmail) useCache) = [] then none
       else some ((collectSuccesses cf (dayKeyFromTime (beginningOfDay start))
          (dayKeyFromTime (beginningOfDay endT))
          (buildEmailSet emails (resolveNormalizeEmail normalizeEmail))
          ⟨goTrim branch.Branch, branch.AllBranches⟩
          (resolveNormalizeEmail normalizeEmail) useCache repos).foldl
            (fun a pt => aggPerRepo a pt.1 pt.2) []),
       collectFailures cf (dayKeyFromTime (beginningOfDay start))
         (dayKeyFromTime (beginningOfDay endT))
         (buildEmailSet emails (resolveNormalizeEmail normalizeEmail))
         ⟨goTrim branch.Branch, branch.AllBranches⟩
         (resolveNormalizeEmail normalizeEmail) useCache repos) := by
  unfold CollectStatsPerRepo collectCommonGeneric normalizeBranchOption
  dsimp only
  rw [if_neg hs, if_neg hu, if_neg hbr]
  dsimp only
  rw [if_neg hord, collectFold_spec]
  dsimp only
  simp only [List.nil_append]
  split <;> rfl

/-- **C10.** With a repository list containing the same path `n > 0`
times (all succeeding with the same stats), `CollectStats` adds that
repository's day counts `n` times into the global map while
`CollectStatsPerRepo` keeps a single entry for the path (later writes
overwrite it); for duplicate-free repository lists the global map equals
the per-repository maps summed by day. -/
theorem collectStats_duplicate_paths_vs_perRepo (cf : CollectorFn (List (Int × Int)))
    (emails : List String) (start endT : GoTime) (branch : BranchOption)
    (normalizeEmail : Option (String → String)) (useCache : Bool)
    (hs : start ≠ goZeroTime) (hu : endT ≠ goZeroTime)
    (hbr : ¬ (goTrim branch.Branch ≠ "" ∧ branch.AllBranches = true))
    (hord : ¬ timeAfter (beginningOfDay start) (beginningOfDay endT)) :
    (∀ (p : String) (stats : List (Int × Int)) (n : Nat), 0 < n →
      cf p (dayKeyFromTime (beginningOfDay start)) (dayKeyFromTime (beginningOfDay endT))
          (buildEmailSet emails (resolveNormalizeEmail normalizeEmail))
          ⟨goTrim branch.Branch, branch.AllBranches⟩
          (resolveNormalizeEmail normalizeEmail) useCache = .ok stats →
      (CollectStats cf (List.replicate n p) emails start endT branch normalizeEmail
          useCache).2 = [] ∧
      (∀ t, (CollectStats cf (List.replicate n p) emails start endT branch normalizeEmail
          useCache).1.elim 0 (fun g => lookupD g t) = n * convSum stats t) ∧
      CollectStatsPerRepo cf (List.replicate n p) emails start endT branch normalizeEmail
          useCache = (some [(p, convAssign stats)], [])) ∧
    (∀ repos : List String, repos.Nodup →
      (∀ (q : String) (s' : List (Int × Int)),
        cf q (dayKeyFromTime (beginningOfDay start)) (dayKeyFromTime (beginningOfDay endT))
          (buildEmailSet emails (resolveNormalizeEmail normalizeEmail))
          ⟨goTrim branch.Branch, branch.AllBranches⟩
          (resolveNormalizeEmail normalizeEmail) useCache = .ok s' →
        ((s'.map (fun pr => dayKeyToTime pr.1)).Nodup)) →
      ∀ g l,
        (CollectStats cf repos emails start endT branch normalizeEmail useCache).1 = some g →
        (CollectStatsPerRepo cf repos emails start endT branch normalizeEmail useCache).1 =
          some l →
        ∀ t, lookupD g t = ((l.map (fun e => lookupD e.2 t)).sum)) := by
  constructor
  · intro p stats n hn hcf
    have hfail := collectFailures_replicate_ok cf _ _ _ _ _ _ p stats hcf n
    have hsucc := collectSuccesses_replicate cf _ _ _ _ _ _ p stats hcf n
    have hG := collectStats_eval cf (List.replicate n p) emails start endT branch
      normalizeEmail useCache hs hu hbr hord
    have hP := collectStatsPerRepo_eval cf (List.replicate n p) emails start endT branch
      normalizeEmail useCache hs hu hbr hord
    rw [hfail] at hG hP
    rw [if_neg (by simp)] at hG hP
    rw [hsucc] at hG hP
    refine ⟨by rw [hG], ?_, ?_⟩
    · intro t
      rw [hG]
      dsimp only [Option.elim]
      rw [replicate_aggGlobal]
      rw [show lookupD ([] : List (GoTime × Int)) t = 0 from rfl]
      ring
    · rw [hP, perRepo_fold_replicate_same p stats n hn]
  · intro repos hnd hknd g l hg hl t
    have hG := collectStats_eval cf repos emails start endT branch
      normalizeEmail useCache hs hu hbr hord
    have hP := collectStatsPerRepo_eval cf repos emails start endT branch
      normalizeEmail useCache hs hu hbr hord
    rw [hG] at hg
    rw [hP] at hl
    dsimp only at hg hl
    by_cases hc : collectFailures cf (dayKeyFromTime (beginningOfDay start))
        (dayKeyFromTime (beginningOfDay endT))
        (buildEmailSet emails (resolveNormalizeEmail normalizeEmail))
        ⟨goTrim branch.Branch, branch.AllBranches⟩
        (resolveNormalizeEmail normalizeEmail) useCache repos ≠ [] ∧
      repos.filter (collectOk cf (dayKeyFromTime (beginningOfDay start))
        (dayKeyFromTime (beginningOfDay endT))
        (buildEmailSet emails (resolveNormalizeEmail normalizeEmail))
        ⟨goTrim branch.Branch, branch.AllBranches⟩
        (resolveNormalizeEmail normalizeEmail) useCache) = []
    · rw [if_pos hc] at hg
      exact absurd hg (by simp)
    · rw [if_neg hc] at hg hl
      injection hg with hg
      injection hl with hl
      rw [← hg, ← hl]
      refine globalFold_eq_perRepoSum _ [] [] ?_ ?_ (by simp) (by intro t2; rfl) t
      · exact ((collectSuccesses_fst_sublist cf _ _ _ _ _ _ repos).nodup hnd)
      · intro pt hpt
        exact hknd pt.1 pt.2 (mem_collectSuccesses cf _ _ _ _ _ _ repos pt hpt)

/-- Witness for C10: the path `"r"` (3 commits on 2024-01-02) listed
twice yields a global count of 6 on that day but a single per-repository
entry counting 3; for the duplicate-free list `["r", "s"]` the global map
equals the per-repository maps summed by day. -/
theorem collectStats_duplicate_paths_vs_perRepo_witness :
    (⟨19723, 0⟩ : GoTime) ≠ goZeroTime ∧
    (CollectStats
        (fun q _ _ _ _ _ _ =>
          if q = "r" then .ok [(20240102, 3)] else .ok [(20240103, 1)])
        (List.replicate 2 "r") [] (⟨19723, 0⟩ : GoTime) (⟨19753, 0⟩ : GoTime) (⟨"", false⟩ : BranchOption) none false).2 = [] ∧
    (CollectStats
        (fun q _ _ _ _ _ _ =>
          if q = "r" then .ok [(20240102, 3)] else .ok [(20240103, 1)])
        (List.replicate 2 "r") [] (⟨19723, 0⟩ : GoTime) (⟨19753, 0⟩ : GoTime) (⟨"", false⟩ : BranchOption) none false).1.elim 0
      (fun g => lookupD g ⟨19724, 0⟩) = 6 ∧
    CollectStatsPerRepo
        (fun q _ _ _ _ _ _ =>
          if q = "r" then .ok [(20240102, 3)] else .ok [(20240103, 1)])
        (List.replicate 2 "r") [] (⟨19723, 0⟩ : GoTime) (⟨19753, 0⟩ : GoTime) (⟨"", false⟩ : BranchOption) none false =
      (some [("r", [(⟨19724, 0⟩, 3)])], []) ∧
    lookupD ([(⟨19724, 0⟩, 3), (⟨19725, 0⟩, 1)] : List (GoTime × Int)) ⟨19724, 0⟩ =
      ((([("r", [(⟨19724, 0⟩, 3)]), ("s", [(⟨19725, 0⟩, 1)])] :
          List (String × List (GoTime × Int))).map
        (fun e => lookupD e.2 (⟨19724, 0⟩ : GoTime))).sum) := by
  have h := collectStats_duplicate_paths_vs_perRepo
    (fun q _ _ _ _ _ _ =>
      if q = "r" then .ok [(20240102, 3)] else .ok [(20240103, 1)])
    [] (⟨19723, 0⟩ : GoTime) (⟨19753, 0⟩ : GoTime) (⟨"", false⟩ : BranchOption) none false
    (by decide) (by decide) (by decide) (by decide)
  have ha := h.1 "r" [(20240102, 3)] 2 (by norm_num) (by decide)
  have hc := h.2 ["r", "s"] (by decide)
    (fun q s' hq => by
      dsimp only at hq
      by_cases hqr : q = "r"
      · rw [if_pos hqr] at hq
        injection hq with hq
        rw [← hq]
        decide
      · rw [if_neg hqr] at hq
        injection hq with hq
        rw [← hq]
        decide)
    [(⟨19724, 0⟩, 3), (⟨19725, 0⟩, 1)]
    [("r", [(⟨19724, 0⟩, 3)]), ("s", [(⟨19725, 0⟩, 1)])]
    (by decide) (by decide) ⟨19724, 0⟩
  exact ⟨by decide, ha.1, (ha.2.1 ⟨19724, 0⟩).trans (by decide),
    ha.2.2.trans (by decide), hc⟩

/-! ## Claim C3: ranking percentages sum to 100 -/

theorem foldl_add_eq_sum {α : Type} (f : α → Int) :
    ∀ (l : List α) (a : Int), l.foldl (fun t r => t + f r) a = a + (l.map f).sum := by
  intro l
  induction l with
  | nil => intro a; simp
  | cons x rest ih =>
      intro a
      rw [List.foldl_cons, ih, List.map_cons, List.sum_cons]
      ring

theorem repoTotal_nonneg (daily : List (GoTime × Int)) : 0 ≤ repoTotal daily := by
  suffices haux : ∀ (l : List (GoTime × Int)) (a : Int), 0 ≤ a →
      0 ≤ l.foldl (fun t p => if p.2 ≤ 0 then t else t + p.2) a by
    exact haux daily 0 le_rfl
  intro l
  induction l with
  | nil => intro a ha; simpa
  | cons p rest ih =>
      intro a ha
      rw [List.foldl_cons]
      by_cases h : p.2 ≤ 0
      · rw [if_pos h]; exact ih a ha
      · rw [if_neg h]; exact ih _ (by omega)

theorem incrAt_sum : ∀ (l : List Int) (i : Nat), i < l.length →
    (incrAt l i).sum = l.sum + 1 := by
  intro l
  induction l with
  | nil => intro i h; simp at h
  | cons x rest ih =>
      intro i h
      match i with
      | 0 => simp [incrAt, List.set]; ring
      | n + 1 =>
          have := ih n (by simpa using h)
          unfold incrAt at this ⊢
          rw [List.set_cons_succ]
          simp only [List.sum_cons, List.getD_cons_succ]
          omega

theorem incrAt_length (l : List Int) (i : Nat) : (incrAt l i).length = l.length := by
  unfold incrAt
  exact List.length_set l i _

theorem extras_fold_spec : ∀ (ps : List percentRemainder) (units : List Int),
    (∀ pr ∈ ps, pr.index < units.length) →
    ((ps.foldl (fun u pr => incrAt u pr.index) units).sum = units.sum + ps.length ∧
      (ps.foldl (fun u pr => incrAt u pr.index) units).length = units.length) := by
  intro ps
  induction ps with
  | nil => intro units _; simp
  | cons pr rest ih =>
      intro units hvalid
      rw [List.foldl_cons]
      have h0 := hvalid pr (List.mem_cons_self _ _)
      have hrec := ih (incrAt units pr.index)
        (fun q hq => by rw [incrAt_length]; exact hvalid q (List.mem_cons_of_mem _ hq))
      refine ⟨?_, ?_⟩
      · rw [hrec.1, incrAt_sum units pr.index h0]
        simp
        ring
      · rw [hrec.2, incrAt_length]

theorem mem_enumFrom_lt {α : Type} : ∀ (l : List α) (k : Nat) (pr : Nat × α),
    pr ∈ l.enumFrom k → pr.1 < k + l.length := by
  intro l
  induction l with
  | nil => intro k pr h; simp [List.enumFrom] at h
  | cons x rest ih =>
      intro k pr h
      rw [List.enumFrom] at h
      rcases List.mem_cons.mp h with h | h
      · rw [h]; simp
      · have := ih (k + 1) pr h
        simp only [List.length_cons]
        omega

theorem sum_div_mod_identity (T : Int) :
    ∀ l : List Int,
      T * ((l.map (fun c => (c * 1000) / T)).sum) + ((l.map (fun c => (c * 1000) % T)).sum) =
        1000 * l.sum := by
  intro l
  induction l with
  | nil => simp
  | cons c rest ih =>
      simp only [List.map_cons, List.sum_cons]
      have hdm := Int.ediv_add_emod (c * 1000) T
      ring_nf
      ring_nf at ih
      nlinarith [hdm]

theorem int_tdiv_nonneg_eq (a b : Int) (ha : 0 ≤ a) (hb : 0 ≤ b) : a.tdiv b = a / b := by
  match a, ha, b, hb with
  | Int.ofNat m, _, Int.ofNat n, _ => rfl

theorem int_tmod_nonneg_eq (a b : Int) (ha : 0 ≤ a) (hb : 0 ≤ b) : a.tmod b = a % b := by
  match a, ha, b, hb with
  | Int.ofNat m, _, Int.ofNat n, _ => rfl

theorem zipWith_percent_map : ∀ (rows : List RepoRank) (units : List Int),
    rows.length = units.length →
    ((List.zipWith (fun r u => { r with Percent := (u : ℚ) / 10 }) rows units).map
      (fun r => r.Percent)) = units.map (fun (u : Int) => (u : ℚ) / 10) := by
  intro rows
  induction rows with
  | nil =>
      intro units h
      cases units with
      | nil => rfl
      | cons _ _ => simp at h
  | cons r rest ih =>
      intro units h
      cases units with
      | nil => simp at h
      | cons u urest =>
          simp only [List.zipWith_cons_cons, List.map_cons]
          rw [ih urest (by simpa using h)]

theorem sum_map_div10 : ∀ units : List Int,
    ((units.map (fun (u : Int) => (u : ℚ) / 10)).sum) = ((units.sum : Int) : ℚ) / 10 := by
  intro units
  induction units with
  | nil => simp
  | cons u rest ih =>
      simp only [List.map_cons, List.sum_cons, ih]
      push_cast
      ring

theorem rank_core (rows : List RepoRank) (T : Int)
    (hT : List.foldl (fun t r => t + r.Commits) 0 rows = T)
    (hpos : 0 < T) (hnn : ∀ r ∈ rows, 0 ≤ r.Commits) :
    ((List.zipWith (fun r u => { r with Percent := (u : ℚ) / 10 }) rows
      (if 0 < 1000 - List.foldl (fun a b => a + b) 0
            (rows.map (fun r => (r.Commits * 1000).tdiv T)) then
        (List.take ((1000 - List.foldl (fun a b => a + b) 0
            (rows.map (fun r => (r.Commits * 1000).tdiv T)) : Int)).toNat
          (List.insertionSort remLess (rows.enum.map (fun ir =>
            { index := ir.1, remainder := (ir.2.Commits * 1000).tmod T,
              commits := ir.2.Commits, repo := ir.2.Repository })))).foldl
          (fun u pr => incrAt u pr.index)
          (rows.map (fun r => (r.Commits * 1000).tdiv T))
      else rows.map (fun r => (r.Commits * 1000).tdiv T))).map (fun r => r.Percent)).sum
    = 100 := by
  have hTnn : 0 ≤ T := le_of_lt hpos
  set units0 := rows.map (fun r => (r.Commits * 1000).tdiv T) with hu0
  set rems := rows.enum.map (fun ir =>
    ({ index := ir.1, remainder := (ir.2.Commits * 1000).tmod T,
       commits := ir.2.Commits, repo := ir.2.Repository } : percentRemainder)) with hrems
  -- the two derived maps in euclidean form
  have hu0e : units0 = rows.map (fun r => (r.Commits * 1000) / T) := by
    rw [hu0]
    exact List.map_congr_left (fun (r : RepoRank) hr =>
      int_tdiv_nonneg_eq _ _ (by have := hnn r hr; omega) hTnn)
  have hreme : rems.map (fun pr => pr.remainder) =
      rows.map (fun r => (r.Commits * 1000) % T) := by
    rw [hrems, List.map_map]
    have h1 : ((fun pr : percentRemainder => pr.remainder) ∘ (fun ir : Nat × RepoRank =>
        ({ index := ir.1, remainder := (ir.2.Commits * 1000).tmod T,
           commits := ir.2.Commits, repo := ir.2.Repository } : percentRemainder))) =
        (fun ir : Nat × RepoRank => (ir.2.Commits * 1000).tmod T) := rfl
    rw [h1]
    have h2 : (fun ir : Nat × RepoRank => (ir.2.Commits * 1000).tmod T) =
        ((fun r : RepoRank => (r.Commits * 1000).tmod T) ∘ Prod.snd) := rfl
    rw [h2, ← List.map_map, List.enum_map_snd]
    exact List.map_congr_left (fun (r : RepoRank) hr =>
      int_tmod_nonneg_eq _ _ (by have := hnn r hr; omega) hTnn)
  have hsum0 : List.foldl (fun (a b : Int) => a + b) 0 units0 = units0.sum := by
    rw [foldl_add_eq_sum (fun x : Int => x) units0 0]
    simp
  have hTc : T = (rows.map (fun r => r.Commits)).sum := by
    rw [← hT, foldl_add_eq_sum (fun r : RepoRank => r.Commits) rows 0]
    omega
  have hkey : T * units0.sum + (rems.map (fun pr => pr.remainder)).sum =
      1000 * T := by
    rw [hu0e, hreme]
    have := sum_div_mod_identity T (rows.map (fun r => r.Commits))
    rw [List.map_map, List.map_map] at this
    rw [show ((fun c : Int => (c * 1000) / T) ∘ fun r : RepoRank => r.Commits) =
      (fun r : RepoRank => (r.Commits * 1000) / T) from rfl] at this
    rw [show ((fun c : Int => (c * 1000) % T) ∘ fun r : RepoRank => r.Commits) =
      (fun r : RepoRank => (r.Commits * 1000) % T) from rfl] at this
    rw [this, ← hTc]
  have hremnn : 0 ≤ (rems.map (fun pr => pr.remainder)).sum := by
    apply List.sum_nonneg
    intro x hx
    rw [hreme] at hx
    rcases List.mem_map.mp hx with ⟨r, _, hxe⟩
    rw [← hxe]
    exact Int.emod_nonneg _ (by omega)
  have hn : 0 < rows.length := by
    cases hr : rows with
    | nil => rw [hr] at hT; simp at hT; omega
    | cons a l => simp
  have hrembound : (rems.map (fun pr => pr.remainder)).sum ≤
      (rows.length : Int) * (T - 1) := by
    have hlen : (rems.map (fun pr => pr.remainder)).length = rows.length := by
      rw [hreme, List.length_map]
    have := List.sum_le_card_nsmul (rems.map (fun pr => pr.remainder)) (T - 1) ?_
    · rw [hlen] at this
      rw [nsmul_eq_mul] at this
      exact this
    · intro x hx
      rw [hreme] at hx
      rcases List.mem_map.mp hx with ⟨r, _, hxe⟩
      rw [← hxe]
      have := Int.emod_lt_of_pos (r.Commits * 1000) hpos
      omega
  set left : Int := 1000 - List.foldl (fun (a b : Int) => a + b) 0 units0 with hleft
  have hleftsum : left = 1000 - units0.sum := by rw [hleft, hsum0]
  have hTleft : T * left = (rems.map (fun pr => pr.remainder)).sum := by
    rw [hleftsum]
    nlinarith [hkey]
  have hleftnn : 0 ≤ left := by nlinarith [hTleft, hremnn, hpos]
  have hleftlt : left < (rows.length : Int) := by
    have h1 : T * left ≤ (rows.length : Int) * (T - 1) := by
      rw [hTleft]; exact hrembound
    nlinarith [hn, hpos]
  have hulen : units0.length = rows.length := by rw [hu0, List.length_map]
  have hremlen : rems.length = rows.length := by
    rw [hrems, List.length_map, List.enum_length]
  have hvalid : ∀ pr ∈ List.insertionSort remLess rems, pr.index < units0.length := by
    intro pr hpr
    have hmem : pr ∈ rems := (List.perm_insertionSort remLess rems).mem_iff.mp hpr
    rw [hrems] at hmem
    rcases List.mem_map.mp hmem with ⟨ir, hir, hire⟩
    have := mem_enumFrom_lt rows 0 ir hir
    rw [hulen, ← hire]
    simpa using this
  have hsortlen : (List.insertionSort remLess rems).length = rows.length := by
    rw [(List.perm_insertionSort remLess rems).length_eq, hremlen]
  -- the final unit list sums to 1000
  have hfinal : (if 0 < left then
        (List.take left.toNat (List.insertionSort remLess rems)).foldl
          (fun u pr => incrAt u pr.index) units0
      else units0).sum = 1000 ∧
      (if 0 < left then
        (List.take left.toNat (List.insertionSort remLess rems)).foldl
          (fun u pr => incrAt u pr.index) units0
      else units0).length = units0.length := by
    split
    next hl =>
      have hspec := extras_fold_spec
        (List.take left.toNat (List.insertionSort remLess rems)) units0
        (fun pr hpr => hvalid pr (List.mem_of_mem_take hpr))
      have htlen : (List.take left.toNat (List.insertionSort remLess rems)).length =
          left.toNat := by
        rw [List.length_take, hsortlen]
        have : left.toNat ≤ rows.length := by omega
        omega
      refine ⟨?_, hspec.2⟩
      rw [hspec.1, htlen]
      have : (left.toNat : Int) = left := Int.toNat_of_nonneg hleftnn
      omega
    next hl =>
      constructor
      · omega
      · rfl
  rw [zipWith_percent_map rows _ (by rw [hfinal.2, hulen])]
  rw [sum_map_div10, hfinal.1]
  norm_num

/-- **C3.** Whenever the total commit count of the rows kept after
sorting (commits descending, ties by repository ascending) and
truncating to the limit is positive, the `Percent` values
`RankRepositories` assigns — floor tenth-of-percent units plus one extra
unit to each of the largest remainders — sum to exactly `100.0`. -/
theorem rankRepositories_percent_sum (statsPerRepo : List (String × List (GoTime × Int)))
    (limit : Int) (h : 0 < (RankRepositories statsPerRepo limit).TotalCommits) :
    (((RankRepositories statsPerRepo limit).Repositories.map (fun r => r.Percent)).sum) =
      (100 : ℚ) := by
  unfold RankRepositories at h ⊢
  dsimp only at h ⊢
  have hbase : ∀ s ∈ List.insertionSort rankLess (statsPerRepo.map (fun pr =>
      ({ Repository := pr.1, Commits := repoTotal pr.2, Percent := 0 } : RepoRank))),
      0 ≤ s.Commits := by
    intro s hs
    have hs2 := (List.perm_insertionSort rankLess _).mem_iff.mp hs
    rcases List.mem_map.mp hs2 with ⟨pr, _, he⟩
    rw [← he]
    exact repoTotal_nonneg pr.2
  split at h
  · next hlim =>
      split at h
      · next htot => dsimp only at h; omega
      · next htot =>
          dsimp only at h
          rw [if_pos hlim, if_neg htot]
          dsimp only
          refine rank_core _ _ rfl (by omega) ?_
          intro r hr
          exact hbase r (List.mem_of_mem_take hr)
  · next hlim =>
      split at h
      · next htot => dsimp only at h; omega
      · next htot =>
          dsimp only at h
          rw [if_neg hlim, if_neg htot]
          dsimp only
          refine rank_core _ _ rfl (by omega) ?_
          intro r hr
          exact hbase r hr

/-- Witness for C3 at the spec's rounding scenario (repository totals
10, 11 and 12, so `T = 33`): `TotalCommits` is positive and the
percentages (30.3, 33.3, 36.4 — the largest remainder takes the
leftover tenth-of-percent unit) sum to exactly 100. -/
theorem rankRepositories_percent_sum_witness :
    0 < (RankRepositories
      [("a", [(⟨0, 0⟩, 10)]), ("b", [(⟨0, 0⟩, 11)]), ("c", [(⟨0, 0⟩, 12)])] 0).TotalCommits ∧
    (((RankRepositories
      [("a", [(⟨0, 0⟩, 10)]), ("b", [(⟨0, 0⟩, 11)]), ("c", [(⟨0, 0⟩, 12)])] 0).Repositories.map
        (fun r => r.Percent)).sum) = (100 : ℚ) :=
  ⟨by decide, rankRepositories_percent_sum
    [("a", [(⟨0, 0⟩, 10)]), ("b", [(⟨0, 0⟩, 11)]), ("c", [(⟨0, 0⟩, 12)])] 0 (by decide)⟩
